import Mathlib

/-!
The falimy server: recipe extraction and rate limiting.

A shallow embedding of `server/internal/handlers/extract_recipe.go` and
`server/internal/ratelimit/ratelimit.go`, followed by the properties proved
about it.

Conventions of the embedding

* A `json.RawMessage` that holds valid JSON is a value of `JSON`; a nil
  `json.RawMessage` (field never set) is `none`, on which every
  `json.Unmarshal` fails.
* `json.Unmarshal(raw, &target)` into a typed target is one function per target
  type (`unmarshalString`, `unmarshalStringSlice`, ...), returning `none`
  where Go returns an error.
* `json.Unmarshal` of a text (the script body) is a parameter of
  `findJSONLDRecipe`: it is the standard library's parser, not code of this
  repository.
* Regular expressions are embedded as the matcher the pattern denotes under
  Go's leftmost-first semantics, over `List Char`.
* Go `int` and `int64` are `Int`; `wrap64` is applied where the source
  arithmetic can leave the 64-bit range.
-/

namespace Falimy

/-! ## Definitions -/

/-! ### JSON values and typed decoding -/

/-- A parsed JSON value. Object fields are kept in document order. -/
inductive JSON where
  | null : JSON
  | bool (b : Bool) : JSON
  | num (lit : String) : JSON
  | str (s : String) : JSON
  | arr (items : List JSON) : JSON
  | obj (fields : List (String × JSON)) : JSON

/-- A Go `map[string]json.RawMessage` as decoded from an object: the field list
in document order, read through `lookup`. -/
abbrev Obj := List (String × JSON)

/-- Map indexing `obj[key]` on a map decoded from a JSON object: when a key
occurs more than once the decoder keeps the last occurrence. -/
def lookup : Obj → String → Option JSON
  | [], _ => none
  | (k, v) :: rest, key =>
    match lookup rest key with
    | some w => some w
    | none => if k = key then some v else none

/-- Decoding one array element into a Go `string`: a JSON string is stored,
`null` leaves the zero value, anything else is a type error. -/
def elemString : JSON → Option String
  | .str s => some s
  | .null => some ""
  | _ => none

/-- Decoding the elements of an array into `[]string`; one type error fails the
whole call. -/
def elemStrings : List JSON → Option (List String)
  | [] => some []
  | x :: xs =>
    match elemString x, elemStrings xs with
    | some s, some ss => some (s :: ss)
    | _, _ => none

/-- The call `json.Unmarshal(raw, &s)` with `s` a fresh `string`. -/
def unmarshalString : JSON → Option String
  | .str s => some s
  | .null => some ""
  | _ => none

/-- The call `json.Unmarshal(raw, &arr)` with `arr` a fresh `[]string`. -/
def unmarshalStringSlice : JSON → Option (List String)
  | .null => some []
  | .arr items => elemStrings items
  | _ => none

/-- The call `json.Unmarshal(raw, &arr)` with `arr` a fresh `[]json.RawMessage`. -/
def unmarshalRawSlice : JSON → Option (List JSON)
  | .null => some []
  | .arr items => some items
  | _ => none

/-- The call `json.Unmarshal(raw, &obj)` with `obj` a fresh
`map[string]json.RawMessage`. -/
def unmarshalMap : JSON → Option Obj
  | .null => some []
  | .obj fields => some fields
  | _ => none

/-- Decoding the elements of an array into `[]map[string]json.RawMessage`. -/
def elemMaps : List JSON → Option (List Obj)
  | [] => some []
  | x :: xs =>
    match unmarshalMap x, elemMaps xs with
    | some m, some ms => some (m :: ms)
    | _, _ => none

/-- The call `json.Unmarshal(raw, &arr)` with `arr` a fresh
`[]map[string]json.RawMessage`. -/
def unmarshalMapSlice : JSON → Option (List Obj)
  | .null => some []
  | .arr items => elemMaps items
  | _ => none

/-! ### Strings -/

/-- Go `unicode.IsSpace`. -/
def isSpace (c : Char) : Bool :=
  let n := c.toNat
  n = 9 || n = 10 || n = 11 || n = 12 || n = 13 || n = 32 || n = 0x85 || n = 0xA0 ||
  n = 0x1680 || (0x2000 ≤ n && n ≤ 0x200A) || n = 0x2028 || n = 0x2029 ||
  n = 0x202F || n = 0x205F || n = 0x3000

/-- Go `strings.TrimSpace` on the characters of a string. -/
def trimSpaceChars (cs : List Char) : List Char :=
  ((cs.dropWhile isSpace).reverse.dropWhile isSpace).reverse

/-- Go `strings.TrimSpace`. -/
def trimSpace (s : String) : String :=
  ⟨trimSpaceChars s.data⟩

/-! ### Records -/

/-- Source `Ingredient`. -/
structure Ingredient where
  Text : String
deriving DecidableEq

/-- Source `Step`. -/
structure Step where
  Text : String
  Position : Nat
deriving DecidableEq

/-- Source `rawRecipe`. A `json.RawMessage` field that was never assigned is
`none`. -/
structure rawRecipe where
  Name : String
  Description : String
  RecipeIngredient : Option JSON
  RecipeInstructions : Option JSON
  PrepTime : String
  CookTime : String
  TotalTime : String
  RecipeYield : Option JSON
  Image : Option JSON

/-! ### Steps -/

/-- Source `getStepText`. -/
def getStepText (obj : Obj) : String :=
  let fromName : String :=
    match lookup obj "name" with
    | some nameRaw =>
      match unmarshalString nameRaw with
      | some name => if name ≠ "" then trimSpace name else ""
      | none => ""
    | none => ""
  match lookup obj "text" with
  | some textRaw =>
    match unmarshalString textRaw with
    | some text => if text ≠ "" then trimSpace text else fromName
    | none => fromName
  | none => fromName

/-- The loop `for i, s := range strArr` of `extractSteps`; `i` is the index of
the head of the remaining slice and `steps` the slice built so far. -/
def stepsOfStrings : Nat → List String → List Step → List Step
  | _, [], steps => steps
  | i, s :: rest, steps =>
    let s := trimSpace s
    if s ≠ "" then stepsOfStrings (i + 1) rest (steps ++ [⟨s, i + 1⟩])
    else stepsOfStrings (i + 1) rest steps

/-- The loop `for _, sub := range subArr` of `extractSteps`. -/
def stepsOfSubItems : List Obj → List Step → List Step
  | [], steps => steps
  | sub :: rest, steps =>
    let text := getStepText sub
    if text ≠ "" then stepsOfSubItems rest (steps ++ [⟨text, steps.length + 1⟩])
    else stepsOfSubItems rest steps

/-- The loop `for i, obj := range objArr` of `extractSteps`. -/
def stepsOfObjects : Nat → List Obj → List Step → List Step
  | _, [], steps => steps
  | i, obj :: rest, steps =>
    match lookup obj "itemListElement" with
    | some itemList =>
      match unmarshalMapSlice itemList with
      | some subArr => stepsOfObjects (i + 1) rest (stepsOfSubItems subArr steps)
      | none => stepsOfObjects (i + 1) rest steps
    | none =>
      let text := getStepText obj
      if text ≠ "" then stepsOfObjects (i + 1) rest (steps ++ [⟨text, i + 1⟩])
      else stepsOfObjects (i + 1) rest steps

/-- Source `extractSteps`. -/
def extractSteps (raw : Option JSON) : List Step :=
  match raw with
  | none => []
  | some v =>
    match unmarshalStringSlice v with
    | some strArr => stepsOfStrings 0 strArr []
    | none =>
      match unmarshalString v with
      | some single =>
        let single := trimSpace single
        if single ≠ "" then [⟨single, 1⟩] else []
      | none =>
        match unmarshalMapSlice v with
        | some objArr => stepsOfObjects 0 objArr []
        | none => []

/-! ### Durations -/

/-- Wrap-around of a mathematical integer into the signed 64-bit range. -/
def wrap64 (x : Int) : Int :=
  (x + 2 ^ 63) % 2 ^ 64 - 2 ^ 63

/-- The regexp class `\d`: an ASCII decimal digit. -/
def isDigit (c : Char) : Bool :=
  48 ≤ c.toNat && c.toNat ≤ 57

/-- The value of a run of decimal digits, most significant first. -/
def digitsValue (ds : List Char) : Nat :=
  ds.foldl (fun acc c => acc * 10 + (c.toNat - 48)) 0

/-- Source `parseInt`, on the inputs it receives: a capture of `(\d+)`, or the
empty string when the group did not take part in the match. `Sscanf` with
`%d` leaves `result` at zero on the empty string and on a numeral outside the
`int` range. -/
def parseInt (s : List Char) : Int :=
  if s ≠ [] ∧ s.all isDigit = true then
    if (digitsValue s : Int) < 2 ^ 63 then (digitsValue s : Int) else 0
  else 0

/-- One optional group `(?:(\d+)X)?` of the duration pattern, tried at the head
of `s`: the capture and the remaining input. The group takes part exactly when
the longest run of digits at the head is non-empty and is followed by the
designator; a shorter run is followed by a digit, so backtracking finds no
other way to match. -/
def optGroup (designator : Char) (s : List Char) : List Char × List Char :=
  match s.span isDigit with
  | (d :: ds, x :: rest) => if x = designator then (d :: ds, rest) else ([], s)
  | _ => ([], s)

/-- The optional literal `T?` of the duration pattern. -/
def optT : List Char → List Char
  | c :: rest => if c = 'T' then rest else c :: rest
  | [] => []

/-- The captures 1 to 4 of the duration pattern
`P(?:(\d+)D)?T?(?:(\d+)H)?(?:(\d+)M)?(?:(\d+)S)?` once `P` has matched; `s` is
the input after the `P`. Every optional part is greedy and nothing after it is
mandatory, so the first match found takes each part whenever it can. -/
def durationGroups (s : List Char) : List Char × List Char × List Char × List Char :=
  let d := optGroup 'D' s
  let h := optGroup 'H' (optT d.2)
  let m := optGroup 'M' h.2
  let sec := optGroup 'S' m.2
  (d.1, h.1, m.1, sec.1)

/-- The call `re.FindStringSubmatch(iso)` for the duration pattern: the
leftmost match starts at the first `P`. -/
def findDurationSubmatch : List Char → Option (List Char × List Char × List Char × List Char)
  | [] => none
  | c :: rest => if c = 'P' then some (durationGroups rest) else findDurationSubmatch rest

/-- Source `parseDuration`; the arithmetic is that of Go `int` (64 bits, wrapping,
division truncating towards zero). -/
def parseDuration (iso : String) : Option Int :=
  if iso = "" then none
  else
    match findDurationSubmatch iso.data with
    | none => none
    | some (g1, g2, g3, g4) =>
      let days := parseInt g1
      let hours := parseInt g2
      let minutes := parseInt g3
      let seconds := parseInt g4
      some (wrap64 (wrap64 (wrap64 (wrap64 (days * 1440) + wrap64 (hours * 60)) + minutes)
        + Int.tdiv (wrap64 (seconds + 30)) 60))

/-- The text `P[dD][T][hH][mM][sS]`: each number, when present, is written as
its decimal numeral followed by its designator; `t` tells whether the `T` is
written. -/
def durationText (d : Option Nat) (t : Bool) (h m s : Option Nat) : String :=
  let part (x : Option Nat) (designator : String) : String :=
    match x with
    | some n => toString n ++ designator
    | none => ""
  "P" ++ part d "D" ++ (if t then "T" else "") ++ part h "H" ++ part m "M" ++ part s "S"

/-! ### Rate limiter -/

/-- Source `entry`. -/
structure entry where
  count : Int
  windowEnd : Int

/-- Source `RateLimiter`, without the mutex: the map from key to entry and the
two configuration fields. -/
structure RateLimiter where
  entries : String → Option entry
  maxRequests : Int
  windowMs : Int

/-- Source `New`. -/
def New (maxRequests : Int) (windowMs : Int) : RateLimiter :=
  ⟨fun _ => none, maxRequests, windowMs⟩

/-- The assignment `rl.entries[key] = e`. -/
def RateLimiter.set (rl : RateLimiter) (key : String) (e : entry) : RateLimiter :=
  { rl with entries := fun k => if k = key then some e else rl.entries k }

/-- Source `Allow`, with the clock reading `time.Now().UnixMilli()` as the
argument `now`: the limiter after the call and the returned boolean. The sum
`now + rl.windowMs` is an `int64` sum. The increment `e.count++` is reached
only with `e.count < rl.maxRequests`, so it stays in range. -/
def RateLimiter.Allow (rl : RateLimiter) (key : String) (now : Int) : RateLimiter × Bool :=
  let fresh : RateLimiter × Bool := (rl.set key ⟨1, wrap64 (now + rl.windowMs)⟩, true)
  match rl.entries key with
  | none => fresh
  | some e =>
    if now > e.windowEnd then fresh
    else if e.count ≥ rl.maxRequests then (rl, false)
    else (rl.set key ⟨e.count + 1, e.windowEnd⟩, true)

/-- A sequence of calls `Allow(key)` made one after the other at the given clock
readings: the limiter after the last call and the returned booleans in call
order. -/
def allowAll (rl : RateLimiter) : List (String × Int) → RateLimiter × List Bool
  | [] => (rl, [])
  | (key, now) :: rest =>
    let r := rl.Allow key now
    let rs := allowAll r.1 rest
    (rs.1, r.2 :: rs.2)

/-- The number of calls of the sequence that were made for `key`, at a clock
reading in the closed interval from `a` to `b`, and admitted. -/
def admittedIn (rl : RateLimiter) (calls : List (String × Int)) (key : String) (a b : Int) : Nat :=
  ((calls.zip (allowAll rl calls).2).filter
    (fun c => decide (c.1.1 = key) && c.2 && decide (a ≤ c.1.2) && decide (c.1.2 ≤ b))).length

/-! ### JSON-LD locator -/

/-- A string field of `parseRawRecipe`: `json.Unmarshal(v, &recipe.Field)` with
the error dropped, so a value that is not a string leaves the field empty. -/
def stringField (obj : Obj) (key : String) : String :=
  match lookup obj key with
  | some v =>
    match unmarshalString v with
    | some s => s
    | none => ""
  | none => ""

/-- Source `parseRawRecipe`. -/
def parseRawRecipe (obj : Obj) : rawRecipe :=
  { Name := stringField obj "name"
    Description := stringField obj "description"
    RecipeIngredient := lookup obj "recipeIngredient"
    RecipeInstructions := lookup obj "recipeInstructions"
    PrepTime := stringField obj "prepTime"
    CookTime := stringField obj "cookTime"
    TotalTime := stringField obj "totalTime"
    RecipeYield := lookup obj "recipeYield"
    Image := lookup obj "image" }

/-- The `@type` test of `findRecipeInJSONLD`: the field decodes as the string
`Recipe`, or decodes as a `[]string` that holds `Recipe`. -/
def isRecipeType (obj : Obj) : Bool :=
  match lookup obj "@type" with
  | none => false
  | some typeRaw =>
    (match unmarshalString typeRaw with
      | some typeStr => decide (typeStr = "Recipe")
      | none => false) ||
    (match unmarshalStringSlice typeRaw with
      | some typeArr => typeArr.any (fun t => decide (t = "Recipe"))
      | none => false)

mutual
/-- Source `findRecipeInJSONLD`. The value decodes as `[]json.RawMessage` when it
is an array or `null`; it decodes as a map when it is an object. -/
def findRecipeInJSONLD : JSON → Option rawRecipe
  | .arr items => findRecipeInItems items
  | .null => none
  | .obj fields =>
    if isRecipeType fields then some (parseRawRecipe fields)
    else
      match findRecipeInGraph fields with
      | some found => found
      | none => none
  | _ => none
/-- The loop `for _, item := range arr` of `findRecipeInJSONLD`. -/
def findRecipeInItems : List JSON → Option rawRecipe
  | [] => none
  | item :: rest =>
    match findRecipeInJSONLD item with
    | some recipe => some recipe
    | none => findRecipeInItems rest
/-- The branch `if graphRaw, hasGraph := obj["@graph"]; hasGraph` of
`findRecipeInJSONLD`, by recursion on the field list: `none` when the object
has no `@graph` key, else the result of the recursive call on the value the map
holds for it (the last occurrence, as in `lookup`). -/
def findRecipeInGraph : List (String × JSON) → Option (Option rawRecipe)
  | [] => none
  | (k, v) :: rest =>
    match findRecipeInGraph rest with
    | some found => some found
    | none => if k = "@graph" then some (findRecipeInJSONLD v) else none
end

/-- The type test of the specification, in its words: the object has an `@type`
field that is either the string `Recipe` or an array containing `Recipe`. -/
def SpecRecipeTyped (fields : Obj) : Prop :=
  lookup fields "@type" = some (.str "Recipe") ∨
    ∃ items, lookup fields "@type" = some (.arr items) ∧ JSON.str "Recipe" ∈ items

/-- The type test of the specification with the array form narrowed to arrays of
strings: the `@type` field is the string `Recipe`, or an array whose entries
are strings or `null` and which contains `Recipe`. -/
def StringRecipeTyped (fields : Obj) : Prop :=
  lookup fields "@type" = some (.str "Recipe") ∨
    ∃ items, lookup fields "@type" = some (.arr items) ∧
      (∀ x ∈ items, x = .null ∨ ∃ s, x = .str s) ∧ JSON.str "Recipe" ∈ items

/-- The search of the specification, one rule per sentence, for a given test
`typed` of what a `Recipe`-typed object is: an array is searched element by
element and the first hit is returned; an object that passes the test is the
match; another object is searched through its `@graph` field only; every other
node gives no match. `Search typed v res` reads: the search of `v` ends with
`res`. -/
inductive Search (typed : Obj → Prop) : JSON → Option rawRecipe → Prop where
  | arrEnd : Search typed (.arr []) none
  | arrHit {x : JSON} {xs : List JSON} {r : rawRecipe} :
      Search typed x (some r) → Search typed (.arr (x :: xs)) (some r)
  | arrNext {x : JSON} {xs : List JSON} {res : Option rawRecipe} :
      Search typed x none → Search typed (.arr xs) res → Search typed (.arr (x :: xs)) res
  | objMatch {fields : Obj} :
      typed fields → Search typed (.obj fields) (some (parseRawRecipe fields))
  | objGraph {fields : Obj} {g : JSON} {res : Option rawRecipe} :
      ¬ typed fields → lookup fields "@graph" = some g → Search typed g res →
      Search typed (.obj fields) res
  | objNone {fields : Obj} :
      ¬ typed fields → lookup fields "@graph" = none → Search typed (.obj fields) none
  | null : Search typed .null none
  | bool {b : Bool} : Search typed (.bool b) none
  | num {lit : String} : Search typed (.num lit) none
  | str {s : String} : Search typed (.str s) none

/-- The value `v` holds `target` under nested arrays and `@graph` envelopes:
`target` is `v` itself, or is held by an element of the array `v`, or by the
`@graph` field of the object `v`. -/
inductive Wraps : JSON → JSON → Prop where
  | here {t : JSON} : Wraps t t
  | inArray {items : List JSON} {x t : JSON} : x ∈ items → Wraps x t → Wraps (.arr items) t
  | inGraph {fields : Obj} {g t : JSON} :
      lookup fields "@graph" = some g → Wraps g t → Wraps (.obj fields) t

/-- The regexp class `\s` of Go: tab, line feed, form feed, carriage return,
space. -/
def isReSpace (c : Char) : Bool :=
  let n := c.toNat
  n = 9 || n = 10 || n = 12 || n = 13 || n = 32

/-- The regexp class `["']`. -/
def isQuote (c : Char) : Bool :=
  c.toNat = 34 || c.toNat = 39

/-- Matching a literal at the head of the input: the input after it. -/
def afterLiteral : List Char → List Char → Option (List Char)
  | [], s => some s
  | _ :: _, [] => none
  | p :: ps, c :: cs => if p = c then afterLiteral ps cs else none

/-- The sub-pattern `type\s*=\s*["']application/ld\+json["']` matches at the head
of the input. -/
def typeAttrAt (s : List Char) : Bool :=
  match afterLiteral "type".data s with
  | none => false
  | some r1 =>
    match r1.dropWhile isReSpace with
    | e :: r2 =>
      e = '=' &&
      (match r2.dropWhile isReSpace with
        | q :: r3 =>
          isQuote q &&
          (match afterLiteral "application/ld+json".data r3 with
            | some (q2 :: _) => isQuote q2
            | _ => false)
        | [] => false)
    | [] => false

/-- The sub-pattern `type\s*=\s*["']application/ld\+json["']` matches somewhere
inside the input. -/
def containsTypeAttr : List Char → Bool
  | [] => false
  | c :: cs => typeAttrAt (c :: cs) || containsTypeAttr cs

/-- The input up to its first `>` and the input after that `>`. -/
def splitTag : List Char → Option (List Char × List Char)
  | [] => none
  | c :: cs =>
    if c = '>' then some ([], cs)
    else
      match splitTag cs with
      | some (tag, rest) => some (c :: tag, rest)
      | none => none

/-- The input up to the first occurrence of `</script>` and the input after that
occurrence. -/
def splitClose : List Char → Option (List Char × List Char)
  | [] => none
  | c :: cs =>
    match afterLiteral "</script>".data (c :: cs) with
    | some rest => some ([], rest)
    | none =>
      match splitClose cs with
      | some (body, rest) => some (c :: body, rest)
      | none => none

/-- The pattern
`<script[^>]*type\s*=\s*["']application/ld\+json["'][^>]*>([\s\S]*?)</script>`
tried at the head of the input: capture 1 and the length of the match. No part
of the pattern before its `>` can match a `>`, so the tag ends at the first `>`
after `<script` and must hold the type attribute before it; the capture is lazy
and ends at the first `</script>` after the tag. -/
def matchScriptAt (s : List Char) : Option (List Char × Nat) :=
  match afterLiteral "<script".data s with
  | none => none
  | some r0 =>
    match splitTag r0 with
    | none => none
    | some (tag, r1) =>
      if containsTypeAttr tag then
        match splitClose r1 with
        | some (body, _) => some (body, 7 + tag.length + 1 + body.length + 9)
        | none => none
      else none

/-- The call `re.FindAllStringSubmatch(html, -1)`, read at capture 1: the
matches are searched from left to right and do not overlap. `skip` counts the
characters of the last match that are still to be passed over. -/
def scanScripts : Nat → List Char → List (List Char)
  | _, [] => []
  | skip + 1, _ :: cs => scanScripts skip cs
  | 0, c :: cs =>
    match matchScriptAt (c :: cs) with
    | some (body, len) => body :: scanScripts (len - 1) cs
    | none => scanScripts 0 cs

/-- The bodies of the JSON-LD script blocks of a document, in document order. -/
def scriptBodies (html : String) : List String :=
  (scanScripts 0 html.data).map String.mk

/-- The loop `for _, match := range matches` of `findJSONLDRecipe`, over capture 1
of each match. Every match of the pattern carries its capture, so the guard
`len(match) < 2` never fires. -/
def firstRecipe (unmarshal : String → Option JSON) : List String → Option rawRecipe
  | [] => none
  | content :: rest =>
    match unmarshal content with
    | none => firstRecipe unmarshal rest
    | some data =>
      match findRecipeInJSONLD data with
      | some recipe => some recipe
      | none => firstRecipe unmarshal rest

/-- Source `findJSONLDRecipe`. `unmarshal` is `json.Unmarshal` of a text into a
`json.RawMessage`: `none` when the text is not valid JSON. -/
def findJSONLDRecipe (unmarshal : String → Option JSON) (html : String) : Option rawRecipe :=
  firstRecipe unmarshal (scriptBodies html)

/-- A block skipped by `findJSONLDRecipe`: its body does not parse, or parses to
a value that holds no recipe. -/
def skipped (unmarshal : String → Option JSON) (content : String) : Prop :=
  unmarshal content = none ∨
    ∃ data, unmarshal content = some data ∧ findRecipeInJSONLD data = none

/-- A document made of JSON-LD script blocks: each pair is the text before a
block and the body of the block; `tail` is the text after the last block. -/
def renderBlocks (blocks : List (String × String)) (tail : String) : String :=
  blocks.foldr
    (fun b acc => b.1 ++ "<script type=\"application/ld+json\">" ++ b.2 ++ "</script>" ++ acc)
    tail

/-- The digits captured for a component of `durationText`: its numeral, or
nothing when the component is not written. -/
def captureOf (x : Option Nat) : List Char :=
  match x with
  | some n => Nat.toDigits 10 n
  | none => []

/-- The invariant behind the burst bound. `seen` is the number of calls already
admitted for `key` at a clock reading between `a` and `b`, and `last` a lower
bound on every clock reading still to come. The window of the entry opened at
`windowEnd - windowMs`: before `a` (then only the calls of this window count),
at or after `a` (then the window before it may have contributed up to
`maxRequests`), or after `b` (then nothing more is counted). -/
def BurstInv (rl : RateLimiter) (key : String) (a b last : Int) (seen : Nat) : Prop :=
  (last < a → seen = 0) ∧
  match rl.entries key with
  | none => seen = 0
  | some e =>
    1 ≤ e.count ∧ e.count ≤ rl.maxRequests ∧ e.windowEnd - rl.windowMs ≤ last ∧
    ((e.windowEnd - rl.windowMs < a ∧ (seen : Int) ≤ e.count) ∨
     (a ≤ e.windowEnd - rl.windowMs ∧ (seen : Int) ≤ rl.maxRequests + e.count) ∨
     (b < e.windowEnd - rl.windowMs ∧ (seen : Int) ≤ 2 * rl.maxRequests))

/-- The literal occurs in the text as a run of consecutive characters. -/
def occursIn (lit : List Char) : List Char → Bool
  | [] => (afterLiteral lit []).isSome
  | c :: cs => (afterLiteral lit (c :: cs)).isSome || occursIn lit cs

/-! ### Field normalizers -/

/-- The loop `for _, s := range arr` of `extractIngredients`; `ingredients` is the
slice built so far. -/
def ingredientsOfStrings : List String → List Ingredient → List Ingredient
  | [], ingredients => ingredients
  | s :: rest, ingredients =>
    let s := trimSpace s
    if s ≠ "" then ingredientsOfStrings rest (ingredients ++ [⟨s⟩])
    else ingredientsOfStrings rest ingredients

/-- Source `extractIngredients`. -/
def extractIngredients (raw : Option JSON) : List Ingredient :=
  match raw with
  | none => []
  | some v =>
    match unmarshalStringSlice v with
    | some arr => ingredientsOfStrings arr []
    | none =>
      match unmarshalString v with
      | some single =>
        let single := trimSpace single
        if single ≠ "" then [⟨single⟩] else []
      | none => []

/-- Source `extractServings`. -/
def extractServings (raw : Option JSON) : String :=
  match raw with
  | none => ""
  | some v =>
    match unmarshalStringSlice v with
    | some (first :: _) => first
    | _ =>
      match unmarshalString v with
      | some single => single
      | none => ""

/-- ASCII lower case of a character. -/
def asciiLower (c : Char) : Char :=
  if 65 ≤ c.toNat ∧ c.toNat ≤ 90 then Char.ofNat (c.toNat + 32) else c

/-- A JSON object key that `encoding/json` stores into the struct field tagged
`json:"url"`: the key equals `url` up to letter case (the letters `u`, `r`, `l`
have no other case variant). -/
def isURLKey (k : String) : Bool :=
  k.data.map asciiLower = ['u', 'r', 'l']

/-- Decoding the fields of a JSON object into `struct { URL string }`, `cur` being
the value of `URL` so far: every key matching the field is decoded in document
order; a string is stored, `null` has no effect, any other value is a type
error (`none`). Other keys are ignored. -/
def urlOfFields (cur : String) : Obj → Option String
  | [] => some cur
  | (k, v) :: rest =>
    if isURLKey k then
      match v with
      | .str s => urlOfFields s rest
      | .null => urlOfFields cur rest
      | _ => none
    else urlOfFields cur rest

/-- The call `json.Unmarshal(raw, &obj)` with `obj` a fresh `struct { URL string }`:
the value of `obj.URL` after a call without error. -/
def unmarshalURLStruct : JSON → Option String
  | .null => some ""
  | .obj fields => urlOfFields "" fields
  | _ => none

/-- Decoding the elements of an array into `[]struct { URL string }`. -/
def elemURLStructs : List JSON → Option (List String)
  | [] => some []
  | x :: xs =>
    match unmarshalURLStruct x, elemURLStructs xs with
    | some u, some us => some (u :: us)
    | _, _ => none

/-- The call `json.Unmarshal(raw, &objArr)` with `objArr` a fresh
`[]struct { URL string }`: the `URL` fields of the elements. -/
def unmarshalURLStructSlice : JSON → Option (List String)
  | .null => some []
  | .arr items => elemURLStructs items
  | _ => none

/-- Source `extractImageURL`. -/
def extractImageURL (raw : Option JSON) : String :=
  match raw with
  | none => ""
  | some v =>
    match unmarshalString v with
    | some str => str
    | none =>
      match unmarshalStringSlice v with
      | some (first :: _) => first
      | _ =>
        let fromObjArr : String :=
          match unmarshalURLStructSlice v with
          | some (first :: _) => first
          | _ => ""
        match unmarshalURLStruct v with
        | some url => if url ≠ "" then url else fromObjArr
        | none => fromObjArr

/-- Source `RecipeResponse`. -/
structure RecipeResponse where
  Title : String
  Description : String
  Ingredients : List Ingredient
  Steps : List Step
  PrepTime : Option Int
  CookTime : Option Int
  TotalTime : Option Int
  Servings : String
  ImageURL : String
  SourceURL : String
deriving DecidableEq

/-- Source `normalizeRecipe`. -/
def normalizeRecipe (raw : rawRecipe) (sourceURL : String) : RecipeResponse :=
  { Title := raw.Name
    Description := raw.Description
    Ingredients := extractIngredients raw.RecipeIngredient
    Steps := extractSteps raw.RecipeInstructions
    PrepTime := parseDuration raw.PrepTime
    CookTime := parseDuration raw.CookTime
    TotalTime := parseDuration raw.TotalTime
    Servings := extractServings raw.RecipeYield
    ImageURL := extractImageURL raw.Image
    SourceURL := sourceURL }

/-! ### Microdata locator -/

/-- The representative of a character under the case folding of the regexp flag
`(?i)`, for the characters that fold with an ASCII letter: an ASCII capital
folds with its small letter, the long s (U+017F) with `s`, the Kelvin sign
(U+212A) with `k`. -/
def foldChar (c : Char) : Char :=
  if c.toNat = 0x17F then 's'
  else if c.toNat = 0x212A then 'k'
  else asciiLower c

/-- Matching an ASCII literal under `(?i)` at the head of the input: the input
after it. -/
def afterLiteralFold : List Char → List Char → Option (List Char)
  | [], s => some s
  | _ :: _, [] => none
  | p :: ps, c :: cs => if foldChar p = foldChar c then afterLiteralFold ps cs else none

/-- The sub-pattern `ATTR\s*=\s*["']` under `(?i)` at the head of the input: the
input after the opening quote. -/
def afterAttrOpen (attr : List Char) (s : List Char) : Option (List Char) :=
  match afterLiteralFold attr s with
  | none => none
  | some r1 =>
    match r1.dropWhile isReSpace with
    | e :: r2 =>
      if e = '=' then
        match r2.dropWhile isReSpace with
        | q :: r3 => if isQuote q then some r3 else none
        | [] => none
      else none
    | [] => none

/-- The class `["']` at the head of the input: the input after the quote. -/
def afterQuote : List Char → Option (List Char)
  | q :: r => if isQuote q then some r else none
  | [] => none

/-- The sub-pattern `itemprop\s*=\s*["']VALUE["']` under `(?i)` at the head of the
input: the input after the closing quote. -/
def afterItemprop (value : List Char) (s : List Char) : Option (List Char) :=
  ((afterAttrOpen "itemprop".data s).bind (afterLiteralFold value)).bind afterQuote

/-- The optional letter of `https?` under `(?i)`. -/
def optS : List Char → List Char
  | c :: r => if foldChar c = 's' then r else c :: r
  | [] => []

/-- The sub-pattern `itemtype\s*=\s*["']https?://schema\.org/Recipe["']` under
`(?i)` at the head of the input: the input after the closing quote. -/
def afterRecipeType (s : List Char) : Option (List Char) :=
  (((afterAttrOpen "itemtype".data s).bind (afterLiteralFold "http".data)).bind
    (fun r => afterLiteralFold "://schema.org/Recipe".data (optS r))).bind afterQuote

/-- The sub-pattern for the recipe item type matches somewhere inside the input. -/
def containsRecipeType : List Char → Bool
  | [] => false
  | c :: cs => (afterRecipeType (c :: cs)).isSome || containsRecipeType cs

/-- The pattern
`(?i)<[^>]*itemtype\s*=\s*["']https?://schema\.org/Recipe["'][^>]*>` matches at
the head of the input: the tag runs from `<` to the first `>` after it and
holds the attribute. -/
def recipeTagAt : List Char → Bool
  | c :: r =>
    c = '<' &&
    (match splitTag r with
      | some (tag, _) => containsRecipeType tag
      | none => false)
  | [] => false

/-- The call `re.FindStringIndex(html)` for the item type pattern, read as the text
`html[start:]` from the start of the leftmost match. -/
def fromRecipeTag : List Char → Option (List Char)
  | [] => none
  | c :: cs => if recipeTagAt (c :: cs) then some (c :: cs) else fromRecipeTag cs

/-- The longest run of whole characters at the head of the input whose UTF-8
encoding fits in `n` bytes. -/
def takeBytes : Nat → List Char → List Char
  | _, [] => []
  | n, c :: cs => if c.utf8Size ≤ n then c :: takeBytes (n - c.utf8Size) cs else []

/-- The slice `html[start:end]` with `end = min(start + 50000, len(html))`, the
argument being `html[start:]`. The slice is cut by bytes; when the cut falls
inside a character the bytes left of that character cannot take part in a
match, every pattern applied to the window ending in a `<` that would have to
come after them, so they are left out. -/
def searchRange (fromStart : List Char) : List Char :=
  takeBytes 50000 fromStart

/-- The input up to its first `<` and the input after that `<`. -/
def splitLt : List Char → Option (List Char × List Char)
  | [] => none
  | c :: cs =>
    if c = '<' then some ([], cs)
    else
      match splitLt cs with
      | some (text, rest) => some (c :: text, rest)
      | none => none

/-- The sub-pattern `[^>]*>([^<]*)<` at the head of the input: the capture and the
input after the match. The tag ends at the first `>` and the capture at the
first `<` after it. -/
def elementText (s : List Char) : Option (List Char × List Char) :=
  match splitTag s with
  | some (_, r) => splitLt r
  | none => none

/-- The pattern `(?i)itemprop\s*=\s*["']VALUE["'][^>]*>([^<]*)<` tried at the head
of the input: capture 1 and the length of the match. -/
def matchItempropAt (value : List Char) (s : List Char) : Option (List Char × Nat) :=
  match (afterItemprop value s).bind elementText with
  | some (text, rest) => some (text, s.length - rest.length)
  | none => none

/-- The pattern
`(?i)(&itemprop\s*=\s*["']text["']|itemprop\s*=\s*["']recipeInstructions["'])[^>]*>([^<]*)<`
tried at the head of the input: capture 2 and the length of the match. The
first alternative starts with the literal `&`. -/
def matchInstructionAt (s : List Char) : Option (List Char × Nat) :=
  let first : Option (List Char) :=
    match s with
    | c :: r => if c = '&' then afterItemprop "text".data r else none
    | [] => none
  let found : Option (List Char × List Char) :=
    match first.bind elementText with
    | some m => some m
    | none => (afterItemprop "recipeInstructions".data s).bind elementText
  match found with
  | some (text, rest) => some (text, s.length - rest.length)
  | none => none

/-- The call `re.FindStringSubmatch(text)`, read at the capture: the capture of the
leftmost match. -/
def reFindFirst (matchAt : List Char → Option (List Char × Nat)) : List Char → Option (List Char)
  | [] => none
  | c :: cs =>
    match matchAt (c :: cs) with
    | some (text, _) => some text
    | none => reFindFirst matchAt cs

/-- The call `re.FindAllStringSubmatch(text, -1)`, read at the capture: the matches
are searched from left to right and do not overlap. `skip` counts the
characters of the last match that are still to be passed over. -/
def reFindAll (matchAt : List Char → Option (List Char × Nat)) : Nat → List Char → List (List Char)
  | _, [] => []
  | skip + 1, _ :: cs => reFindAll matchAt skip cs
  | 0, c :: cs =>
    match matchAt (c :: cs) with
    | some (text, len) => text :: reFindAll matchAt (len - 1) cs
    | none => reFindAll matchAt 0 cs

/-- The title found by `findMicrodataRecipe` in the window. -/
def microdataName (window : List Char) : String :=
  match reFindFirst (matchItempropAt "name".data) window with
  | some text => trimSpace ⟨text⟩
  | none => ""

/-- The description found by `findMicrodataRecipe` in the window. -/
def microdataDescription (window : List Char) : String :=
  match reFindFirst (matchItempropAt "description".data) window with
  | some text => trimSpace ⟨text⟩
  | none => ""

/-- The slice `ingList` of `findMicrodataRecipe`. -/
def microdataIngredients (window : List Char) : List String :=
  (reFindAll (matchItempropAt "recipeIngredient".data) 0 window).map (fun text => trimSpace ⟨text⟩)

/-- The slice `instList` of `findMicrodataRecipe`. -/
def microdataInstructions (window : List Char) : List String :=
  (reFindAll matchInstructionAt 0 window).map (fun text => trimSpace ⟨text⟩)

/-- The value `json.Marshal(list)` of a `[]string`, as the JSON value it denotes. -/
def marshalStrings (list : List String) : JSON :=
  .arr (list.map .str)

/-- Source `findMicrodataRecipe`. -/
def findMicrodataRecipe (html : String) : Option rawRecipe :=
  match fromRecipeTag html.data with
  | none => none
  | some fromStart =>
    let window := searchRange fromStart
    let name := microdataName window
    let ingList := microdataIngredients window
    let instList := microdataInstructions window
    if name = "" ∧ ingList.length = 0 then none
    else
      some
        { Name := name
          Description := microdataDescription window
          RecipeIngredient := if ingList.length > 0 then some (marshalStrings ingList) else none
          RecipeInstructions := if instList.length > 0 then some (marshalStrings instList) else none
          PrepTime := ""
          CookTime := ""
          TotalTime := ""
          RecipeYield := none
          Image := none }

/-! ### Handler -/

/-- The replies of the handler `ExtractRecipe` after the page was fetched: status
422 with a message, or status 200 with the record. -/
inductive Reply where
  | unprocessable (message : String) : Reply
  | ok (result : RecipeResponse) : Reply
deriving DecidableEq

/-- The two locators in the order of `ExtractRecipe`: `findJSONLDRecipe`, and
`findMicrodataRecipe` when that returned nil. -/
def locateRecipe (unmarshal : String → Option JSON) (html : String) : Option rawRecipe :=
  match findJSONLDRecipe unmarshal html with
  | some recipe => some recipe
  | none => findMicrodataRecipe html

/-- The end of `ExtractRecipe`, from the located recipe to the reply. -/
def replyFor (recipe : Option rawRecipe) (rawURL : String) : Reply :=
  match recipe with
  | none =>
    .unprocessable "No recipe data found on this page. Please enter the recipe manually."
  | some raw =>
    let result := normalizeRecipe raw rawURL
    if result.Title = "" ∧ result.Ingredients.length = 0 ∧ result.Steps.length = 0 then
      .unprocessable
        "Could not extract useful recipe data from this page. Please enter the recipe manually."
    else .ok result

/-- Source `ExtractRecipe`, from the fetched page `html` on. -/
def extractFromPage (unmarshal : String → Option JSON) (html rawURL : String) : Reply :=
  replyFor (locateRecipe unmarshal html) rawURL

/-- The Go string that decoding into a `[]string` stores for an array entry that
is a string or `null`: the string itself, and the empty string for `null`. -/
def entryText : JSON → String
  | .str s => s
  | _ => ""

/-- The ingredient entries kept by the loop of `extractIngredients`: the trimmed
strings that are not empty, in order. -/
def keptIngredients (strs : List String) : List Ingredient :=
  ((strs.map trimSpace).filter (fun s => decide (s ≠ ""))).map Ingredient.mk

/-- The step texts of a run of step objects: the results of `getStepText` that are
not empty, in order. -/
def stepTexts (subs : List Obj) : List String :=
  (subs.map getStepText).filter (fun t => decide (t ≠ ""))

/-! ## Theorems -/

/-! ### Steps -/

/-- C1 (code defect): in `extractSteps` a dropped entry does consume a position.
For the list of strings `["Mix", " ", "Bake"]` the emitted positions are 1 and 3,
not 1 and 2; for the list of objects `[{"text":"a"}, {}, {"text":"b"}]` they are
1 and 3; and for a section of two sub-steps followed by a plain step object they
are 1, 2, 2. The section loop numbers by `len(steps) + 1`, the two other loops
by the input index `i + 1`. -/
theorem extractSteps_positions_follow_input_index :
    extractSteps (some (.arr [.str "Mix", .str " ", .str "Bake"]))
      = [⟨"Mix", 1⟩, ⟨"Bake", 3⟩] ∧
    extractSteps (some (.arr [.obj [("text", .str "a")], .obj [], .obj [("text", .str "b")]]))
      = [⟨"a", 1⟩, ⟨"b", 3⟩] ∧
    extractSteps (some (.arr
        [.obj [("itemListElement", .arr [.obj [("text", .str "a")], .obj [("text", .str "b")]])],
         .obj [("text", .str "c")]]))
      = [⟨"a", 1⟩, ⟨"b", 2⟩, ⟨"c", 2⟩] := by
  refine ⟨?_, ?_, ?_⟩ <;> decide

/-! ### Durations -/

theorem findDurationSubmatch_eq_none (cs : List Char) :
    findDurationSubmatch cs = none ↔ 'P' ∉ cs := by
  induction cs with
  | nil => simp [findDurationSubmatch]
  | cons c rest ih =>
    by_cases h : c = 'P'
    · simp [findDurationSubmatch, h]
    · have h2 : ¬ 'P' = c := fun e => h e.symm
      simp [findDurationSubmatch, h, h2, ih]

theorem span_no_digit (s : List Char) (h : ∀ c ∈ s, isDigit c = false) :
    s.span isDigit = ([], s) := by
  cases s with
  | nil => rfl
  | cons c rest =>
    have := h c (List.mem_cons_self _ _)
    simp [List.span, List.span.loop, this]

theorem optGroup_no_digit (x : Char) (s : List Char) (h : ∀ c ∈ s, isDigit c = false) :
    optGroup x s = ([], s) := by
  rw [optGroup, span_no_digit s h]

theorem optT_no_digit (s : List Char) (h : ∀ c ∈ s, isDigit c = false) :
    ∀ c ∈ optT s, isDigit c = false := by
  cases s with
  | nil => simp [optT]
  | cons a rest =>
    by_cases ha : a = 'T'
    · simp only [optT, ha, if_true]
      intro c hc; exact h c (List.mem_cons_of_mem _ hc)
    · simp only [optT, ha, if_false]
      exact h

theorem durationGroups_no_digit (s : List Char) (h : ∀ c ∈ s, isDigit c = false) :
    durationGroups s = ([], [], [], []) := by
  have hT := optT_no_digit s h
  simp [durationGroups, optGroup_no_digit _ s h, optGroup_no_digit _ (optT s) hT]

theorem findDurationSubmatch_first (pre post : List Char) (h : 'P' ∉ pre) :
    findDurationSubmatch (pre ++ 'P' :: post) = some (durationGroups post) := by
  induction pre with
  | nil => simp [findDurationSubmatch]
  | cons c rest ih =>
    have hc : c ≠ 'P' := fun e => h (by rw [e]; exact List.mem_cons_self _ _)
    have hrest : 'P' ∉ rest := fun e => h (List.mem_cons_of_mem _ e)
    simp [findDurationSubmatch, hc, ih hrest]

/-- C3: `parseDuration` is absent exactly on the strings without a `P`; every
string with a `P` yields a present value, and that value is 0 when no digit
follows the first `P`; the empty string and `not-a-duration` are absent. -/
theorem parseDuration_absent_iff_no_P :
    (∀ iso : String, parseDuration iso = none ↔ 'P' ∉ iso.data) ∧
    (∀ iso : String, 'P' ∈ iso.data → ∃ n, parseDuration iso = some n) ∧
    (∀ pre post : List Char, 'P' ∉ pre → (∀ c ∈ post, isDigit c = false) →
      parseDuration ⟨pre ++ 'P' :: post⟩ = some 0) ∧
    parseDuration "" = none ∧ parseDuration "not-a-duration" = none := by
  have key : ∀ iso : String, parseDuration iso = none ↔ 'P' ∉ iso.data := by
    intro iso
    unfold parseDuration
    by_cases h0 : iso = ""
    · subst h0; simp
    · simp only [h0, if_false]
      rw [← findDurationSubmatch_eq_none]
      cases hf : findDurationSubmatch iso.data with
      | none => simp
      | some g => obtain ⟨g1, g2, g3, g4⟩ := g; simp
  refine ⟨key, ?_, ?_, by decide, by decide⟩
  · intro iso hP
    cases h : parseDuration iso with
    | none => exact absurd hP ((key iso).1 h)
    | some n => exact ⟨n, rfl⟩
  · intro pre post hP hd
    have h0 : (⟨pre ++ 'P' :: post⟩ : String) ≠ "" := by
      intro e
      have := congrArg String.data e
      simp at this
    unfold parseDuration
    simp only [h0, if_false, findDurationSubmatch_first pre post hP,
      durationGroups_no_digit post hd]
    decide

/-- Witness for C3: the text `xPT` has no digit after its `P` and yields 0. -/
theorem parseDuration_absent_iff_no_P_witness :
    parseDuration ⟨['x'] ++ 'P' :: ['T']⟩ = some 0 :=
  parseDuration_absent_iff_no_P.2.2.1 ['x'] ['T'] (by decide) (by decide)

theorem digitChar_spec : ∀ k, k < 10 →
    isDigit (Nat.digitChar k) = true ∧ (Nat.digitChar k).toNat - 48 = k := by
  decide

theorem digitsValue_append (l : List Char) (c : Char) :
    digitsValue (l ++ [c]) = digitsValue l * 10 + (c.toNat - 48) := by
  simp [digitsValue, List.foldl_append]

/-- The digits produced by `Nat.toDigitsCore` with enough fuel. -/
theorem toDigitsCore_spec (fuel : Nat) : ∀ n, n < fuel →
    ∃ l : List Char, (∀ ds, Nat.toDigitsCore 10 fuel n ds = l ++ ds) ∧ l ≠ [] ∧
      l.all isDigit = true ∧ digitsValue l = n := by
  induction fuel with
  | zero => intro n h; omega
  | succ fuel ih =>
    intro n hn
    have hd := digitChar_spec (n % 10) (Nat.mod_lt _ (by decide))
    by_cases h0 : n / 10 = 0
    · refine ⟨[Nat.digitChar (n % 10)], ?_, by simp, by simp [hd.1], ?_⟩
      · intro ds; simp [Nat.toDigitsCore, h0]
      · simp [digitsValue, hd.2]; omega
    · obtain ⟨l, hl, hne, hall, hval⟩ := ih (n / 10) (by omega)
      refine ⟨l ++ [Nat.digitChar (n % 10)], ?_, by simp, ?_, ?_⟩
      · intro ds; simp [Nat.toDigitsCore, h0, hl]
      · simp [List.all_append, hall, hd.1]
      · rw [digitsValue_append, hval, hd.2]; omega

theorem toDigits_spec (n : Nat) :
    Nat.toDigits 10 n ≠ [] ∧ (Nat.toDigits 10 n).all isDigit = true ∧
      digitsValue (Nat.toDigits 10 n) = n := by
  obtain ⟨l, hl, hne, hall, hval⟩ := toDigitsCore_spec (n + 1) n (by omega)
  have : Nat.toDigits 10 n = l := by simp [Nat.toDigits, hl]
  rw [this]; exact ⟨hne, hall, hval⟩

theorem span_digits (ds : List Char) (x : Char) (rest : List Char)
    (hall : ds.all isDigit = true) (hx : isDigit x = false) :
    (ds ++ x :: rest).span isDigit = (ds, x :: rest) := by
  rw [List.span_eq_take_drop]
  induction ds with
  | nil => simp [List.takeWhile, List.dropWhile, hx]
  | cons d ds ih =>
    simp only [List.all_cons, Bool.and_eq_true] at hall
    have := ih hall.2
    simp only [Prod.mk.injEq] at this
    simp [List.takeWhile, List.dropWhile, hall.1, this.1, this.2]

theorem optGroup_hit (x : Char) (n : Nat) (rest : List Char) (hx : isDigit x = false) :
    optGroup x (Nat.toDigits 10 n ++ x :: rest) = (Nat.toDigits 10 n, rest) := by
  obtain ⟨hne, hall, _⟩ := toDigits_spec n
  rw [optGroup, span_digits _ x rest hall hx]
  cases h : Nat.toDigits 10 n with
  | nil => exact absurd h hne
  | cons d ds => simp

theorem optGroup_miss (x y : Char) (n : Nat) (rest : List Char) (hy : isDigit y = false)
    (hxy : y ≠ x) :
    optGroup x (Nat.toDigits 10 n ++ y :: rest) = ([], Nat.toDigits 10 n ++ y :: rest) := by
  obtain ⟨hne, hall, _⟩ := toDigits_spec n
  rw [optGroup, span_digits _ y rest hall hy]
  cases h : Nat.toDigits 10 n with
  | nil => exact absurd h hne
  | cons d ds => simp [hxy]

theorem optGroup_nil (x : Char) : optGroup x [] = ([], []) := by
  simp [optGroup, List.span, List.span.loop]

theorem optGroup_cons_no_digit (x c : Char) (rest : List Char) (hc : isDigit c = false) :
    optGroup x (c :: rest) = ([], c :: rest) := by
  simp [optGroup, List.span, List.span.loop, hc]

theorem wrap64_of_range (x : Int) (h1 : -2 ^ 63 ≤ x) (h2 : x < 2 ^ 63) : wrap64 x = x := by
  unfold wrap64
  rw [Int.emod_eq_of_lt (by omega) (by omega)]
  omega

theorem parseInt_toDigits (n : Nat) (h : (n : Int) < 2 ^ 63) :
    parseInt (Nat.toDigits 10 n) = n := by
  obtain ⟨hne, hall, hval⟩ := toDigits_spec n
  unfold parseInt
  rw [if_pos ⟨hne, hall⟩, hval, if_pos h]

theorem parseInt_nil : parseInt [] = 0 := by
  simp [parseInt]

theorem toString_data (n : Nat) : (toString n).data = Nat.toDigits 10 n := rfl

theorem durationText_data (d : Option Nat) (t : Bool) (h m s : Option Nat) :
    (durationText d t h m s).data =
      'P' :: ((match d with | some n => Nat.toDigits 10 n ++ ['D'] | none => []) ++
        ((if t then ['T'] else []) ++
          ((match h with | some n => Nat.toDigits 10 n ++ ['H'] | none => []) ++
            ((match m with | some n => Nat.toDigits 10 n ++ ['M'] | none => []) ++
              (match s with | some n => Nat.toDigits 10 n ++ ['S'] | none => []))))) := by
  cases d <;> cases t <;> cases h <;> cases m <;> cases s <;>
    simp [durationText, String.data_append, toString_data]

theorem optT_T (rest : List Char) : optT ('T' :: rest) = rest := by
  simp [optT]

theorem optT_nil : optT [] = [] := rfl

theorem optT_toDigits (n : Nat) (rest : List Char) :
    optT (Nat.toDigits 10 n ++ rest) = Nat.toDigits 10 n ++ rest := by
  obtain ⟨hne, hall, _⟩ := toDigits_spec n
  cases h : Nat.toDigits 10 n with
  | nil => exact absurd h hne
  | cons c cs =>
    rw [h] at hall
    simp only [List.all_cons, Bool.and_eq_true] at hall
    have hc : c ≠ 'T' := by
      intro e; rw [e] at hall; exact absurd hall.1 (by decide)
    simp [optT, hc]

theorem durationGroups_durationText (d : Option Nat) (t : Bool) (h m s : Option Nat) :
    durationGroups
      ((match d with | some n => Nat.toDigits 10 n ++ ['D'] | none => []) ++
        ((if t then ['T'] else []) ++
          ((match h with | some n => Nat.toDigits 10 n ++ ['H'] | none => []) ++
            ((match m with | some n => Nat.toDigits 10 n ++ ['M'] | none => []) ++
              (match s with | some n => Nat.toDigits 10 n ++ ['S'] | none => [])))))
      = (captureOf d, captureOf h, captureOf m, captureOf s) := by
  have hD : isDigit 'D' = false := by decide
  have hH : isDigit 'H' = false := by decide
  have hM : isDigit 'M' = false := by decide
  have hS : isDigit 'S' = false := by decide
  have hT : isDigit 'T' = false := by decide
  cases d <;> cases t <;> cases h <;> cases m <;> cases s <;>
    simp [durationGroups, captureOf, optGroup_nil, optT_nil, optT_T, optT_toDigits,
      optGroup_hit, optGroup_miss, optGroup_cons_no_digit, hD, hH, hM, hS, hT]

theorem parseInt_captureOf (x : Option Nat) (h : ((x.getD 0 : Nat) : Int) < 2 ^ 63) :
    parseInt (captureOf x) = (x.getD 0 : Nat) := by
  cases x with
  | none => simp [captureOf, parseInt_nil]
  | some n => simpa [captureOf] using parseInt_toDigits n (by simpa using h)

/-- C2: on a text `P[dD][T][hH][mM][sS]` whose numbers are small enough for the
64-bit arithmetic to be exact, `parseDuration` returns
`d*1440 + h*60 + m + (s+30)/60`, an omitted component counting as 0; and
`PT1H30M` gives 90, `P1DT2H` gives 1560, `PT0S` gives 0. -/
theorem parseDuration_components :
    (∀ (d : Option Nat) (t : Bool) (h m s : Option Nat),
      s.getD 0 + 30 < 2 ^ 63 →
      d.getD 0 * 1440 + h.getD 0 * 60 + m.getD 0 + (s.getD 0 + 30) / 60 < 2 ^ 63 →
      parseDuration (durationText d t h m s) =
        some ((d.getD 0 * 1440 + h.getD 0 * 60 + m.getD 0 + (s.getD 0 + 30) / 60 : Nat) : Int)) ∧
    parseDuration "PT1H30M" = some 90 ∧
    parseDuration "P1DT2H" = some 1560 ∧
    parseDuration "PT0S" = some 0 := by
  refine ⟨?_, by decide, by decide, by decide⟩
  intro d t h m s hs htot
  have hne : durationText d t h m s ≠ "" := by
    intro e
    have := congrArg String.data e
    rw [durationText_data] at this
    simp at this
  unfold parseDuration
  rw [if_neg hne, durationText_data]
  simp only [findDurationSubmatch, if_true, durationGroups_durationText]
  have hd : ((d.getD 0 : Nat) : Int) < 2 ^ 63 := by
    have : d.getD 0 < 2 ^ 63 := by omega
    exact_mod_cast this
  have hh : ((h.getD 0 : Nat) : Int) < 2 ^ 63 := by
    have : h.getD 0 < 2 ^ 63 := by omega
    exact_mod_cast this
  have hm : ((m.getD 0 : Nat) : Int) < 2 ^ 63 := by
    have : m.getD 0 < 2 ^ 63 := by omega
    exact_mod_cast this
  have hs2 : ((s.getD 0 : Nat) : Int) < 2 ^ 63 := by
    have : s.getD 0 < 2 ^ 63 := by omega
    exact_mod_cast this
  rw [parseInt_captureOf d hd, parseInt_captureOf h hh, parseInt_captureOf m hm,
    parseInt_captureOf s hs2]
  generalize d.getD 0 = dv at *
  generalize h.getD 0 = hv at *
  generalize m.getD 0 = mv at *
  generalize s.getD 0 = sv at *
  have e1 : Int.tdiv ((sv : Int) + 30) 60 = (((sv + 30) / 60 : Nat) : Int) := by
    have : ((sv : Int) + 30) = ((sv + 30 : Nat) : Int) := by push_cast; ring
    rw [this]
    exact (Int.ofNat_tdiv _ _).symm
  have hsI : ((sv : Int) + 30) < 2 ^ 63 := by exact_mod_cast hs
  have htI : ((dv : Int) * 1440 + hv * 60 + mv + (((sv + 30) / 60 : Nat) : Int)) < 2 ^ 63 := by
    exact_mod_cast htot
  have hq : (0 : Int) ≤ (((sv + 30) / 60 : Nat) : Int) := Int.natCast_nonneg _
  have hdn : (0 : Int) ≤ (dv : Int) := Int.natCast_nonneg _
  have hhn : (0 : Int) ≤ (hv : Int) := Int.natCast_nonneg _
  have hmn : (0 : Int) ≤ (mv : Int) := Int.natCast_nonneg _
  have hsn : (0 : Int) ≤ (sv : Int) := Int.natCast_nonneg _
  rw [wrap64_of_range ((sv : Int) + 30) (by omega) hsI, e1,
    wrap64_of_range ((dv : Int) * 1440) (by omega) (by omega),
    wrap64_of_range ((hv : Int) * 60) (by omega) (by omega),
    wrap64_of_range ((dv : Int) * 1440 + hv * 60) (by omega) (by omega),
    wrap64_of_range ((dv : Int) * 1440 + hv * 60 + mv) (by omega) (by omega),
    wrap64_of_range _ (by omega) htI]
  push_cast
  rfl

/-- Witness for C2: the text `P1DT2H3M45S`. -/
theorem parseDuration_components_witness :
    parseDuration (durationText (some 1) true (some 2) (some 3) (some 45)) = some 1564 :=
  parseDuration_components.1 (some 1) true (some 2) (some 3) (some 45) (by decide) (by decide)

/-! ### Rate limiter -/

theorem set_entries_self (rl : RateLimiter) (key : String) (e : entry) :
    (rl.set key e).entries key = some e := by
  simp [RateLimiter.set]

theorem set_entries_other (rl : RateLimiter) (key k : String) (e : entry) (h : k ≠ key) :
    (rl.set key e).entries k = rl.entries k := by
  simp [RateLimiter.set, h]

theorem Allow_fresh (rl : RateLimiter) (key : String) (now : Int)
    (h : rl.entries key = none ∨ ∃ e, rl.entries key = some e ∧ now > e.windowEnd) :
    rl.Allow key now = (rl.set key ⟨1, wrap64 (now + rl.windowMs)⟩, true) := by
  unfold RateLimiter.Allow
  rcases h with h | ⟨e, he, hlt⟩
  · simp [h]
  · simp [he, hlt]

theorem Allow_count (rl : RateLimiter) (key : String) (now : Int) (e : entry)
    (he : rl.entries key = some e) (hlive : now ≤ e.windowEnd) (hc : e.count < rl.maxRequests) :
    rl.Allow key now = (rl.set key ⟨e.count + 1, e.windowEnd⟩, true) := by
  unfold RateLimiter.Allow
  have h1 : ¬ now > e.windowEnd := by omega
  have h2 : ¬ e.count ≥ rl.maxRequests := by omega
  simp [he, h1, h2]

theorem Allow_deny (rl : RateLimiter) (key : String) (now : Int) (e : entry)
    (he : rl.entries key = some e) (hlive : now ≤ e.windowEnd) (hc : e.count ≥ rl.maxRequests) :
    rl.Allow key now = (rl, false) := by
  unfold RateLimiter.Allow
  have h1 : ¬ now > e.windowEnd := by omega
  simp [he, h1, hc]

/-- C5: one `Allow` step is the three-case state machine. With no entry for the key
or an expired window the entry becomes count 1 with window end `now + windowMs`
(the `int64` sum, which is the exact sum whenever that fits in 64 bits) and the
call is admitted; in a live window with `count < maxRequests` the count grows
by one, the window end stays and the call is admitted; in a live window with
`count ≥ maxRequests` the call is denied and the limiter is unchanged. In the
two admitting cases the entries of the other keys and the configuration are
unchanged. -/
theorem Allow_state_machine (rl : RateLimiter) (key : String) (now : Int) :
    ((rl.entries key = none ∨ ∃ e, rl.entries key = some e ∧ now > e.windowEnd) →
      (rl.Allow key now).2 = true ∧
      (rl.Allow key now).1.entries key = some ⟨1, wrap64 (now + rl.windowMs)⟩ ∧
      (∀ k, k ≠ key → (rl.Allow key now).1.entries k = rl.entries k) ∧
      (rl.Allow key now).1.maxRequests = rl.maxRequests ∧
      (rl.Allow key now).1.windowMs = rl.windowMs) ∧
    (∀ e, rl.entries key = some e → now ≤ e.windowEnd → e.count < rl.maxRequests →
      (rl.Allow key now).2 = true ∧
      (rl.Allow key now).1.entries key = some ⟨e.count + 1, e.windowEnd⟩ ∧
      (∀ k, k ≠ key → (rl.Allow key now).1.entries k = rl.entries k) ∧
      (rl.Allow key now).1.maxRequests = rl.maxRequests ∧
      (rl.Allow key now).1.windowMs = rl.windowMs) ∧
    (∀ e, rl.entries key = some e → now ≤ e.windowEnd → e.count ≥ rl.maxRequests →
      rl.Allow key now = (rl, false)) ∧
    (-2 ^ 63 ≤ now + rl.windowMs → now + rl.windowMs < 2 ^ 63 →
      wrap64 (now + rl.windowMs) = now + rl.windowMs) := by
  refine ⟨?_, ?_, ?_, ?_⟩
  · intro h
    rw [Allow_fresh rl key now h]
    exact ⟨rfl, set_entries_self _ _ _, fun k hk => set_entries_other _ _ _ _ hk, rfl, rfl⟩
  · intro e he hlive hc
    rw [Allow_count rl key now e he hlive hc]
    exact ⟨rfl, set_entries_self _ _ _, fun k hk => set_entries_other _ _ _ _ hk, rfl, rfl⟩
  · intro e he hlive hc
    exact Allow_deny rl key now e he hlive hc
  · intro h1 h2
    exact wrap64_of_range _ h1 h2

/-- Witness for C5: the first call on a new limiter opens a window. -/
theorem Allow_state_machine_witness :
    ((New 30 900000).Allow "203.0.113.7" 1000).2 = true ∧
    ((New 30 900000).Allow "203.0.113.7" 1000).1.entries "203.0.113.7"
      = some ⟨1, wrap64 (1000 + (New 30 900000).windowMs)⟩ ∧
    (∀ k, k ≠ "203.0.113.7" →
      ((New 30 900000).Allow "203.0.113.7" 1000).1.entries k = (New 30 900000).entries k) ∧
    ((New 30 900000).Allow "203.0.113.7" 1000).1.maxRequests = (New 30 900000).maxRequests ∧
    ((New 30 900000).Allow "203.0.113.7" 1000).1.windowMs = (New 30 900000).windowMs :=
  (Allow_state_machine (New 30 900000) "203.0.113.7" 1000).1 (Or.inl rfl)

theorem allowAll_live (key : String) : ∀ (ts : List Int) (rl : RateLimiter) (c E : Int),
    rl.entries key = some ⟨c, E⟩ → (∀ t ∈ ts, t ≤ E) →
    (allowAll rl (ts.map (fun t => (key, t)))).2
      = (List.range ts.length).map (fun (i : Nat) => decide (c + (i : Int) < rl.maxRequests)) ∧
    (∃ c', (allowAll rl (ts.map (fun t => (key, t)))).1.entries key = some ⟨c', E⟩) := by
  intro ts
  induction ts with
  | nil => intro rl c E he _; exact ⟨rfl, c, he⟩
  | cons t ts ih =>
    intro rl c E he hlive
    have ht : t ≤ E := hlive t (List.mem_cons_self _ _)
    have hts : ∀ t ∈ ts, t ≤ E := fun u hu => hlive u (List.mem_cons_of_mem _ hu)
    by_cases hc : c < rl.maxRequests
    · have hA := Allow_count rl key t ⟨c, E⟩ he ht hc
      obtain ⟨h1, h2⟩ := ih (rl.set key ⟨c + 1, E⟩) (c + 1) E (set_entries_self _ _ _) hts
      simp only [List.map_cons, allowAll, hA, List.length_cons]
      refine ⟨?_, h2⟩
      rw [h1, List.range_succ_eq_map, List.map_cons, List.map_map]
      simp only [RateLimiter.set, Nat.cast_zero, add_zero, hc, decide_True, List.cons.injEq,
        true_and]
      apply List.map_congr_left
      intro i _
      simp only [Function.comp, Nat.cast_succ]
      congr 2
      ring
    · have hA := Allow_deny rl key t ⟨c, E⟩ he ht (by simpa using hc)
      obtain ⟨h1, h2⟩ := ih rl c E he hts
      simp only [List.map_cons, allowAll, hA, List.length_cons]
      refine ⟨?_, h2⟩
      rw [h1, List.range_succ_eq_map, List.map_cons, List.map_map]
      simp only [Nat.cast_zero, add_zero, hc, decide_False, List.cons.injEq, true_and]
      apply List.map_congr_left
      intro i _
      have hi : (0 : Int) ≤ (i : Int) := Int.natCast_nonneg i
      have a1 : ¬ (c + (i : Int) < rl.maxRequests) := by omega
      have a2 : ¬ (c + ((i + 1 : Nat) : Int) < rl.maxRequests) := by push_cast; omega
      simp only [Function.comp, Nat.succ_eq_add_one, a1, a2]

/-- C4 (as amended): with `maxRequests ≥ 1`, on a key without entry, a run of
calls whose later clock readings all lie within the window opened by the first
call admits call number `i` (counted from 0) exactly when `i < maxRequests`:
the first `maxRequests` calls are admitted and every later one is denied; and
a call made after the run at a clock reading greater than the window end is
admitted. -/
theorem allow_fresh_key_within_window (rl : RateLimiter) (key : String) (t1 : Int)
    (ts : List Int) (hmax : 1 ≤ rl.maxRequests) (hfresh : rl.entries key = none)
    (hlive : ∀ t ∈ ts, t ≤ wrap64 (t1 + rl.windowMs)) :
    (allowAll rl ((t1 :: ts).map (fun t => (key, t)))).2
      = (List.range (ts.length + 1)).map (fun (i : Nat) => decide ((i : Int) < rl.maxRequests)) ∧
    ∀ now, now > wrap64 (t1 + rl.windowMs) →
      ((allowAll rl ((t1 :: ts).map (fun t => (key, t)))).1.Allow key now).2 = true := by
  have hA := Allow_fresh rl key t1 (Or.inl hfresh)
  obtain ⟨h1, c', h2⟩ := allowAll_live key ts (rl.set key ⟨1, wrap64 (t1 + rl.windowMs)⟩) 1
    (wrap64 (t1 + rl.windowMs)) (set_entries_self _ _ _) hlive
  simp only [List.map_cons, allowAll, hA]
  constructor
  · rw [h1, List.range_succ_eq_map, List.map_cons, List.map_map]
    have h0 : (0 : Int) < rl.maxRequests := by omega
    simp only [RateLimiter.set, Nat.cast_zero, h0, decide_True, List.cons.injEq, true_and]
    apply List.map_congr_left
    intro i _
    simp only [Function.comp, Nat.cast_succ]
    congr 2
    ring
  · intro now hnow
    rw [Allow_fresh _ key now (Or.inr ⟨_, h2, hnow⟩)]

/-- Witness for C4: three calls in one window of a limiter admitting two. -/
theorem allow_fresh_key_within_window_witness :
    (allowAll (New 2 60000) ([1000, 1500, 2000].map (fun t => ("203.0.113.7", t)))).2
      = (List.range 3).map (fun (i : Nat) => decide ((i : Int) < (New 2 60000).maxRequests)) ∧
    ∀ now, now > wrap64 (1000 + (New 2 60000).windowMs) →
      ((allowAll (New 2 60000)
        ([1000, 1500, 2000].map (fun t => ("203.0.113.7", t)))).1.Allow "203.0.113.7" now).2
        = true :=
  allow_fresh_key_within_window (New 2 60000) "203.0.113.7" 1000 [1500, 2000] (by decide) rfl
    (by decide)

/-- Counterexample to C4 as stated: with `maxRequests = 0` the first call on a new
key is admitted, so the run does not admit exactly the first 0 calls. -/
theorem allow_zero_max_admits_first :
    (New 0 60000).maxRequests = 0 ∧
    (allowAll (New 0 60000) ([1000].map (fun t => ("203.0.113.7", t)))).2 = [true] ∧
    (allowAll (New 0 60000) ([1000].map (fun t => ("203.0.113.7", t)))).2
      ≠ (List.range 1).map (fun (i : Nat) => decide ((i : Int) < (New 0 60000).maxRequests)) := by
  decide

theorem Allow_config (rl : RateLimiter) (key : String) (now : Int) :
    (rl.Allow key now).1.maxRequests = rl.maxRequests ∧
    (rl.Allow key now).1.windowMs = rl.windowMs := by
  unfold RateLimiter.Allow
  cases h : rl.entries key with
  | none => exact ⟨rfl, rfl⟩
  | some e =>
    by_cases h1 : now > e.windowEnd
    · simp [h1, RateLimiter.set]
    · by_cases h2 : e.count ≥ rl.maxRequests
      · simp [h1, h2]
      · simp [h1, h2, RateLimiter.set]

theorem Allow_other_key (rl : RateLimiter) (key k : String) (now : Int) (h : key ≠ k) :
    (rl.Allow k now).1.entries key = rl.entries key := by
  unfold RateLimiter.Allow
  cases hk : rl.entries k with
  | none => simp [RateLimiter.set, h]
  | some e =>
    by_cases h1 : now > e.windowEnd
    · simp [h1, RateLimiter.set, h]
    · by_cases h2 : e.count ≥ rl.maxRequests
      · simp [h1, h2]
      · simp [h1, h2, RateLimiter.set, h]

theorem admittedIn_cons (rl : RateLimiter) (k : String) (t : Int) (rest : List (String × Int))
    (key : String) (a b : Int) :
    admittedIn rl ((k, t) :: rest) key a b =
      (if k = key ∧ (rl.Allow k t).2 = true ∧ a ≤ t ∧ t ≤ b then 1 else 0) +
        admittedIn (rl.Allow k t).1 rest key a b := by
  unfold admittedIn
  simp only [allowAll, List.zip_cons_cons, List.filter_cons]
  by_cases hc : k = key ∧ (rl.Allow k t).2 = true ∧ a ≤ t ∧ t ≤ b
  · have hd : (decide (k = key) && (rl.Allow k t).2 && decide (a ≤ t) && decide (t ≤ b))
        = true := by
      obtain ⟨h1, h2, h3, h4⟩ := hc
      subst h1
      simp [h2, h3, h4]
    rw [if_pos hc, if_pos hd, List.length_cons]
    omega
  · have hd : ¬ (decide (k = key) && (rl.Allow k t).2 && decide (a ≤ t) && decide (t ≤ b))
        = true := by
      intro hne
      simp only [Bool.and_eq_true, decide_eq_true_eq] at hne
      exact hc ⟨hne.1.1.1, hne.1.1.2, hne.1.2, hne.2⟩
    rw [if_neg hc, if_neg hd]
    omega

/-- One call preserves the burst invariant, the counter growing by one exactly
when the call is counted. -/
theorem BurstInv_step (rl : RateLimiter) (key k : String) (a b last t : Int) (seen : Nat)
    (hmax : 1 ≤ rl.maxRequests) (hlen : b - a ≤ rl.windowMs) (hlast : last ≤ t)
    (hr1 : -2 ^ 63 ≤ t + rl.windowMs) (hr2 : t + rl.windowMs < 2 ^ 63)
    (hinv : BurstInv rl key a b last seen) :
    BurstInv (rl.Allow k t).1 key a b t
      (seen + (if k = key ∧ (rl.Allow k t).2 = true ∧ a ≤ t ∧ t ≤ b then 1 else 0)) := by
  obtain ⟨hz, hent⟩ := hinv
  have hcfg := Allow_config rl k t
  have hw : wrap64 (t + rl.windowMs) = t + rl.windowMs := wrap64_of_range _ hr1 hr2
  by_cases hk : k = key
  · subst hk
    -- the call is for the observed key
    have hfreshInv : ∀ (hfr : rl.entries k = none ∨ ∃ e, rl.entries k = some e ∧ t > e.windowEnd),
        (t < a → seen = 0) →
        (a ≤ t → ((seen : Int) ≤ rl.maxRequests ∨ (b < t ∧ (seen : Int) ≤ 2 * rl.maxRequests))) →
        BurstInv (rl.Allow k t).1 k a b t
          (seen + (if k = k ∧ (rl.Allow k t).2 = true ∧ a ≤ t ∧ t ≤ b then 1 else 0)) := by
      intro hfr hlt hge
      rw [Allow_fresh rl k t hfr]
      unfold BurstInv
      rw [set_entries_self]
      dsimp only [RateLimiter.set]
      rw [hw]
      simp only [eq_self_iff_true, true_and]
      by_cases hta : t < a
      · have hs := hlt hta
        have hnc : ¬ (a ≤ t ∧ t ≤ b) := by omega
        rw [if_neg hnc]
        subst hs
        refine ⟨fun _ => rfl, le_refl _, hmax, by omega, Or.inl ⟨by omega, by simp⟩⟩
      · have hat : a ≤ t := by omega
        refine ⟨fun h => absurd h hta, le_refl _, hmax, by omega, ?_⟩
        rcases hge hat with h | ⟨hbt, h⟩
        · by_cases hcnt : a ≤ t ∧ t ≤ b
          · rw [if_pos hcnt]
            exact Or.inr (Or.inl ⟨by omega, by push_cast; omega⟩)
          · rw [if_neg hcnt]
            exact Or.inr (Or.inl ⟨by omega, by push_cast; omega⟩)
        · have hnc : ¬ (a ≤ t ∧ t ≤ b) := by omega
          rw [if_neg hnc]
          exact Or.inr (Or.inr ⟨by omega, by simpa using h⟩)
    cases he : rl.entries k with
    | none =>
      rw [he] at hent
      simp only at hent
      apply hfreshInv (Or.inl he)
      · intro _; exact hent
      · intro _; left; rw [hent]; simp; omega
    | some e =>
      rw [he] at hent
      simp only at hent
      obtain ⟨hc1, hc2, hT, hcase⟩ := hent
      by_cases hexp : t > e.windowEnd
      · apply hfreshInv (Or.inr ⟨e, he, hexp⟩)
        · intro hta; exact hz (by omega)
        · intro hat
          rcases hcase with ⟨_, h⟩ | ⟨h1, h⟩ | ⟨h1, h⟩
          · left; omega
          · right; exact ⟨by omega, by omega⟩
          · right; exact ⟨by omega, h⟩
      · have hlive : t ≤ e.windowEnd := by omega
        by_cases hcm : e.count < rl.maxRequests
        · rw [Allow_count rl k t e he hlive hcm]
          unfold BurstInv
          rw [set_entries_self]
          dsimp only [RateLimiter.set]
          simp only [eq_self_iff_true, true_and]
          refine ⟨?_, by omega, by omega, by omega, ?_⟩
          · intro hta
            have hnc : ¬ (a ≤ t ∧ t ≤ b) := by omega
            rw [if_neg hnc, hz (by omega)]
          · rcases hcase with ⟨h1, h⟩ | ⟨h1, h⟩ | ⟨h1, h⟩
            · left
              refine ⟨h1, ?_⟩
              split <;> (push_cast; omega)
            · right; left
              refine ⟨h1, ?_⟩
              split <;> (push_cast; omega)
            · right; right
              have hnc : ¬ (a ≤ t ∧ t ≤ b) := by omega
              rw [if_neg hnc]
              exact ⟨h1, by simpa using h⟩
        · rw [Allow_deny rl k t e he hlive (by omega)]
          have hnc : ¬ (k = k ∧ (rl, false).2 = true ∧ a ≤ t ∧ t ≤ b) := by simp
          rw [if_neg hnc]
          unfold BurstInv
          dsimp only
          rw [he]
          exact ⟨fun hta => hz (by omega), hc1, hc2, by omega, hcase⟩
  · -- a call for another key leaves the entry and the counter as they are
    have hnc : ¬ (k = key ∧ (rl.Allow k t).2 = true ∧ a ≤ t ∧ t ≤ b) := fun h => hk h.1
    rw [if_neg hnc]
    unfold BurstInv
    rw [Allow_other_key rl key k t (fun h => hk h.symm), hcfg.1, hcfg.2]
    refine ⟨fun hta => hz (by omega), ?_⟩
    cases he : rl.entries key with
    | none => rw [he] at hent; exact hent
    | some e =>
      rw [he] at hent
      simp only at hent ⊢
      obtain ⟨hc1, hc2, hT, hcase⟩ := hent
      exact ⟨hc1, hc2, by omega, hcase⟩

theorem BurstInv_le (rl : RateLimiter) (key : String) (a b last : Int) (seen : Nat)
    (hmax : 1 ≤ rl.maxRequests) (hinv : BurstInv rl key a b last seen) :
    (seen : Int) ≤ 2 * rl.maxRequests := by
  obtain ⟨_, hent⟩ := hinv
  cases he : rl.entries key with
  | none =>
    rw [he] at hent
    simp only at hent
    rw [hent]
    simp only [Nat.cast_zero]
    omega
  | some e =>
    rw [he] at hent
    simp only at hent
    obtain ⟨_, _, _, hcase⟩ := hent
    rcases hcase with ⟨_, h⟩ | ⟨_, h⟩ | ⟨_, h⟩ <;> omega

theorem burst_bound (key : String) (a b : Int) : ∀ (calls : List (String × Int))
    (rl : RateLimiter) (last : Int) (seen : Nat),
    1 ≤ rl.maxRequests → b - a ≤ rl.windowMs →
    calls.Pairwise (fun c d => c.2 ≤ d.2) →
    (∀ c ∈ calls, last ≤ c.2) →
    (∀ c ∈ calls, -2 ^ 63 ≤ c.2 + rl.windowMs ∧ c.2 + rl.windowMs < 2 ^ 63) →
    BurstInv rl key a b last seen →
    ((seen + admittedIn rl calls key a b : Nat) : Int) ≤ 2 * rl.maxRequests := by
  intro calls
  induction calls with
  | nil =>
    intro rl last seen hmax _ _ _ _ hinv
    have := BurstInv_le rl key a b last seen hmax hinv
    simpa [admittedIn, allowAll] using this
  | cons c rest ih =>
    intro rl last seen hmax hlen hsorted hlast hrange hinv
    obtain ⟨k, t⟩ := c
    have hcfg := Allow_config rl k t
    have hr := hrange (k, t) (List.mem_cons_self _ _)
    have hstep := BurstInv_step rl key k a b last t seen hmax hlen
      (hlast (k, t) (List.mem_cons_self _ _)) hr.1 hr.2 hinv
    rw [List.pairwise_cons] at hsorted
    have := ih (rl.Allow k t).1 t _ (by rw [hcfg.1]; exact hmax) (by rw [hcfg.2]; exact hlen)
      hsorted.2 (fun c hc => hsorted.1 c hc)
      (fun c hc => by rw [hcfg.2]; exact hrange c (List.mem_cons_of_mem _ hc)) hstep
    rw [hcfg.1] at this
    rw [admittedIn_cons, ← Nat.add_assoc]
    exact this

/-- C6 (as amended): for a limiter with `maxRequests ≥ 1`, calls made at
non-decreasing clock readings, and `now + windowMs` within the signed 64-bit
range at every call, the calls admitted for one key at clock readings in an
interval `[a, b]` of length at most `windowMs` number at most
`2 * maxRequests`. -/
theorem admitted_in_interval_le (maxRequests windowMs : Int) (calls : List (String × Int))
    (key : String) (a b : Int)
    (hmax : 1 ≤ maxRequests)
    (hsorted : calls.Pairwise (fun c d => c.2 ≤ d.2))
    (hrange : ∀ c ∈ calls, -2 ^ 63 ≤ c.2 + windowMs ∧ c.2 + windowMs < 2 ^ 63)
    (hlen : b - a ≤ windowMs) :
    (admittedIn (New maxRequests windowMs) calls key a b : Int) ≤ 2 * maxRequests := by
  cases calls with
  | nil =>
    simp only [admittedIn, allowAll, List.zip_nil_right, List.filter_nil, List.length_nil,
      Nat.cast_zero]
    omega
  | cons c rest =>
    have hlast : ∀ d ∈ c :: rest, c.2 ≤ d.2 := by
      intro d hd
      rcases List.mem_cons.1 hd with e | e
      · rw [e]
      · exact (List.pairwise_cons.1 hsorted).1 d e
    have hinv : BurstInv (New maxRequests windowMs) key a b c.2 0 := ⟨fun _ => rfl, rfl⟩
    have := burst_bound key a b (c :: rest) (New maxRequests windowMs) c.2 0 hmax hlen hsorted
      hlast hrange hinv
    simpa [New] using this

/-- Witness for C6: four calls around a window boundary of a limiter admitting
two per minute. -/
theorem admitted_in_interval_le_witness :
    (admittedIn (New 2 60000)
      [("203.0.113.7", 1000), ("203.0.113.7", 61000), ("203.0.113.7", 61001),
       ("203.0.113.7", 61002)] "203.0.113.7" 1000 61000 : Int) ≤ 2 * 2 :=
  admitted_in_interval_le 2 60000 _ "203.0.113.7" 1000 61000 (by decide) (by decide) (by decide)
    (by decide)

/-- Counterexample to C6 as stated: with `windowMs = 2^63 - 1` the sum
`now + windowMs` wraps to a negative window end, every call finds its window
expired, and three calls made at the same millisecond are all admitted by a
limiter with `maxRequests = 1`. -/
theorem admitted_exceeds_double_on_wrapped_window :
    (1 : Int) ≤ (New 1 (2 ^ 63 - 1)).maxRequests ∧
    ([("203.0.113.7", 1700000000000), ("203.0.113.7", 1700000000000),
      ("203.0.113.7", (1700000000000 : Int))].Pairwise (fun c d => c.2 ≤ d.2)) ∧
    (1700000000000 : Int) - 1700000000000 ≤ (New 1 (2 ^ 63 - 1)).windowMs ∧
    admittedIn (New 1 (2 ^ 63 - 1))
      [("203.0.113.7", 1700000000000), ("203.0.113.7", 1700000000000),
       ("203.0.113.7", 1700000000000)] "203.0.113.7" 1700000000000 1700000000000 = 3 ∧
    ¬ ((admittedIn (New 1 (2 ^ 63 - 1))
      [("203.0.113.7", 1700000000000), ("203.0.113.7", 1700000000000),
       ("203.0.113.7", 1700000000000)] "203.0.113.7" 1700000000000 1700000000000 : Int)
        ≤ 2 * (New 1 (2 ^ 63 - 1)).maxRequests) := by
  decide

/-! ### JSON-LD locator -/

theorem findRecipeInGraph_eq (fields : Obj) :
    findRecipeInGraph fields = (lookup fields "@graph").map findRecipeInJSONLD := by
  induction fields with
  | nil => rfl
  | cons p rest ih =>
    obtain ⟨k, v⟩ := p
    rw [findRecipeInGraph, lookup, ih]
    cases lookup rest "@graph" with
    | some w => rfl
    | none =>
      by_cases hk : k = "@graph"
      · simp [hk]
      · simp [hk]

theorem findRecipeInJSONLD_obj (fields : Obj) :
    findRecipeInJSONLD (.obj fields) =
      if isRecipeType fields then some (parseRawRecipe fields)
      else
        match lookup fields "@graph" with
        | some g => findRecipeInJSONLD g
        | none => none := by
  rw [findRecipeInJSONLD, findRecipeInGraph_eq]
  cases lookup fields "@graph" <;> rfl

theorem findRecipeInItems_eq (items : List JSON) :
    findRecipeInItems items = items.findSome? findRecipeInJSONLD := by
  induction items with
  | nil => rfl
  | cons x xs ih =>
    rw [findRecipeInItems, List.findSome?_cons, ih]
    cases findRecipeInJSONLD x <;> rfl

theorem findRecipeInJSONLD_wraps {v t : JSON} (hw : Wraps v t)
    (ht : (findRecipeInJSONLD t).isSome = true) : (findRecipeInJSONLD v).isSome = true := by
  induction hw with
  | here => exact ht
  | @inArray items x t hx _ ih =>
    have hx2 := ih ht
    rw [findRecipeInJSONLD, findRecipeInItems_eq, List.findSome?_isSome_iff]
    exact ⟨x, hx, hx2⟩
  | @inGraph fields g t hg _ ih =>
    have hg2 := ih ht
    rw [findRecipeInJSONLD_obj, hg]
    by_cases htype : isRecipeType fields = true
    · rw [if_pos htype]; rfl
    · rw [if_neg htype]; exact hg2

theorem elemStrings_of_strings : ∀ items : List JSON,
    (∀ x ∈ items, x = .null ∨ ∃ s, x = .str s) →
    ∃ ss, elemStrings items = some ss ∧ (JSON.str "Recipe" ∈ items → "Recipe" ∈ ss) := by
  intro items
  induction items with
  | nil => intro _; exact ⟨[], rfl, fun h => by simp at h⟩
  | cons x xs ih =>
    intro hall
    obtain ⟨ss, hss, hmem⟩ := ih (fun y hy => hall y (List.mem_cons_of_mem _ hy))
    rcases hall x (List.mem_cons_self _ _) with hx | ⟨s, hx⟩
    · subst hx
      refine ⟨"" :: ss, by simp [elemStrings, elemString, hss], ?_⟩
      intro h
      rcases List.mem_cons.1 h with e | e
      · cases e
      · exact List.mem_cons_of_mem _ (hmem e)
    · subst hx
      refine ⟨s :: ss, by simp [elemStrings, elemString, hss], ?_⟩
      intro h
      rcases List.mem_cons.1 h with e | e
      · cases e; exact List.mem_cons_self _ _
      · exact List.mem_cons_of_mem _ (hmem e)

/-- C8 (as amended): an object whose `@type` field is the string `Recipe`, or is
an array of strings (a `null` entry counting as the empty string) that holds
`Recipe`, is the match of `findRecipeInJSONLD`, which returns the record built
from its known keys. -/
theorem findRecipeInJSONLD_recipe_typed (fields : Obj)
    (h : lookup fields "@type" = some (.str "Recipe") ∨
      ∃ items, lookup fields "@type" = some (.arr items) ∧
        (∀ x ∈ items, x = .null ∨ ∃ s, x = .str s) ∧ JSON.str "Recipe" ∈ items) :
    findRecipeInJSONLD (.obj fields) = some (parseRawRecipe fields) := by
  have ht : isRecipeType fields = true := by
    unfold isRecipeType
    rcases h with h | ⟨items, h, hall, hmem⟩
    · rw [h]; rfl
    · rw [h]
      obtain ⟨ss, hss, hin⟩ := elemStrings_of_strings items hall
      simp only [unmarshalString, unmarshalStringSlice, hss, Bool.false_or, List.any_eq_true,
        decide_eq_true_eq]
      exact ⟨"Recipe", hin hmem, rfl⟩
  rw [findRecipeInJSONLD_obj, if_pos ht]

/-- Witness for C8: an object typed by the array `["Thing", "Recipe"]`. -/
theorem findRecipeInJSONLD_recipe_typed_witness :
    findRecipeInJSONLD (.obj [("@type", .arr [.str "Thing", .str "Recipe"]), ("name", .str "Soup")])
      = some (parseRawRecipe [("@type", .arr [.str "Thing", .str "Recipe"]), ("name", .str "Soup")]) :=
  findRecipeInJSONLD_recipe_typed _
    (Or.inr ⟨[.str "Thing", .str "Recipe"], rfl,
      fun x hx => by
        rcases List.mem_cons.1 hx with e | e
        · exact Or.inr ⟨"Thing", e⟩
        · rcases List.mem_cons.1 e with e | e
          · exact Or.inr ⟨"Recipe", e⟩
          · simp at e,
      List.mem_cons_of_mem _ (List.mem_cons_self _ _)⟩)

/-- Counterexample to C8 as stated: the `@type` array `["Recipe", 1]` holds the
string `Recipe` next to a number; decoding it as `[]string` fails and the
object is not matched. -/
theorem findRecipeInJSONLD_mixed_type_array :
    lookup [("@type", .arr [.str "Recipe", .num "1"]), ("name", .str "Soup")] "@type"
      = some (.arr [.str "Recipe", .num "1"]) ∧
    JSON.str "Recipe" ∈ [JSON.str "Recipe", JSON.num "1"] ∧
    findRecipeInJSONLD (.obj [("@type", .arr [.str "Recipe", .num "1"]), ("name", .str "Soup")])
      = none :=
  ⟨rfl, List.mem_cons_self _ _, rfl⟩

theorem firstRecipe_cons_none (unmarshal : String → Option JSON) (b : String)
    (rest : List String) (hu : unmarshal b = none) :
    firstRecipe unmarshal (b :: rest) = firstRecipe unmarshal rest := by
  simp [firstRecipe, hu]

theorem firstRecipe_cons_hit (unmarshal : String → Option JSON) (b : String)
    (rest : List String) (data : JSON) (r : rawRecipe) (hu : unmarshal b = some data)
    (hf : findRecipeInJSONLD data = some r) :
    firstRecipe unmarshal (b :: rest) = some r := by
  simp [firstRecipe, hu, hf]

theorem firstRecipe_cons_miss (unmarshal : String → Option JSON) (b : String)
    (rest : List String) (data : JSON) (hu : unmarshal b = some data)
    (hf : findRecipeInJSONLD data = none) :
    firstRecipe unmarshal (b :: rest) = firstRecipe unmarshal rest := by
  simp [firstRecipe, hu, hf]

theorem firstRecipe_eq_some (unmarshal : String → Option JSON) (r : rawRecipe) :
    ∀ bodies : List String, firstRecipe unmarshal bodies = some r ↔
      ∃ pre content post data, bodies = pre ++ content :: post ∧
        (∀ c ∈ pre, skipped unmarshal c) ∧ unmarshal content = some data ∧
        findRecipeInJSONLD data = some r := by
  intro bodies
  induction bodies with
  | nil =>
    constructor
    · intro h; simp [firstRecipe] at h
    · rintro ⟨pre, content, post, data, h, _⟩; simp at h
  | cons b rest ih =>
    constructor
    · intro h
      cases hu : unmarshal b with
      | none =>
        rw [firstRecipe_cons_none _ _ _ hu] at h
        obtain ⟨pre, content, post, data, e, hs, h1, h2⟩ := ih.1 h
        refine ⟨b :: pre, content, post, data, by rw [e]; rfl, ?_, h1, h2⟩
        intro c hc
        rcases List.mem_cons.1 hc with e | e
        · rw [e]; exact Or.inl hu
        · exact hs c e
      | some data =>
        cases hf : findRecipeInJSONLD data with
        | some r2 =>
          rw [firstRecipe_cons_hit _ _ _ _ _ hu hf] at h
          simp only [Option.some.injEq] at h
          subst h
          exact ⟨[], b, rest, data, rfl, fun c hc => by simp at hc, hu, hf⟩
        | none =>
          rw [firstRecipe_cons_miss _ _ _ _ hu hf] at h
          obtain ⟨pre, content, post, d2, e, hs, h1, h2⟩ := ih.1 h
          refine ⟨b :: pre, content, post, d2, by rw [e]; rfl, ?_, h1, h2⟩
          intro c hc
          rcases List.mem_cons.1 hc with e | e
          · rw [e]; exact Or.inr ⟨data, hu, hf⟩
          · exact hs c e
    · rintro ⟨pre, content, post, data, e, hs, h1, h2⟩
      cases pre with
      | nil =>
        simp only [List.nil_append, List.cons.injEq] at e
        obtain ⟨e1, _⟩ := e
        subst e1
        exact firstRecipe_cons_hit _ _ _ _ _ h1 h2
      | cons p pre =>
        simp only [List.cons_append, List.cons.injEq] at e
        obtain ⟨e1, e2⟩ := e
        subst e1
        have hrest : firstRecipe unmarshal rest = some r :=
          ih.2 ⟨pre, content, post, data, e2, fun c hc => hs c (List.mem_cons_of_mem _ hc), h1, h2⟩
        rcases hs b (List.mem_cons_self _ _) with hb | ⟨d, hb, hf⟩
        · rw [firstRecipe_cons_none _ _ _ hb]; exact hrest
        · rw [firstRecipe_cons_miss _ _ _ _ hb hf]; exact hrest

theorem firstRecipe_eq_none (unmarshal : String → Option JSON) :
    ∀ bodies : List String, firstRecipe unmarshal bodies = none ↔
      ∀ c ∈ bodies, skipped unmarshal c := by
  intro bodies
  induction bodies with
  | nil => simp [firstRecipe]
  | cons b rest ih =>
    cases hu : unmarshal b with
    | none =>
      rw [firstRecipe_cons_none _ _ _ hu]
      simp only [List.mem_cons, forall_eq_or_imp, ih]
      exact ⟨fun h => ⟨Or.inl hu, h⟩, fun h => h.2⟩
    | some data =>
      cases hf : findRecipeInJSONLD data with
      | some r =>
        rw [firstRecipe_cons_hit _ _ _ _ _ hu hf]
        constructor
        · intro h; cases h
        · intro h
          rcases h b (List.mem_cons_self _ _) with hs | ⟨d, hd, hfd⟩
          · rw [hu] at hs; cases hs
          · rw [hu] at hd; cases hd; rw [hf] at hfd; cases hfd
      | none =>
        rw [firstRecipe_cons_miss _ _ _ _ hu hf]
        simp only [List.mem_cons, forall_eq_or_imp, ih]
        exact ⟨fun h => ⟨Or.inr ⟨data, hu, hf⟩, h⟩, fun h => h.2⟩

theorem afterLiteral_append (lit s : List Char) : afterLiteral lit (lit ++ s) = some s := by
  induction lit with
  | nil => cases s <;> rfl
  | cons p ps ih => simp [afterLiteral, ih]

theorem afterLiteral_head_ne (p c : Char) (ps cs : List Char) (h : p ≠ c) :
    afterLiteral (p :: ps) (c :: cs) = none := by
  simp [afterLiteral, h]

/-- A literal without `<` that fails on a text also fails on that text followed by
nothing or by a text starting with `<`. -/
theorem afterLiteral_append_none (rest : List Char) (hrest : rest = [] ∨ ∃ r, rest = '<' :: r) :
    ∀ lit suf : List Char, '<' ∉ lit → afterLiteral lit suf = none →
      afterLiteral lit (suf ++ rest) = none := by
  intro lit
  induction lit with
  | nil => intro suf _ h; cases suf <;> simp [afterLiteral] at h
  | cons p ps ih =>
    intro suf hlit h
    have hp : p ≠ '<' := fun e => hlit (by rw [e]; exact List.mem_cons_self _ _)
    have hps : '<' ∉ ps := fun e => hlit (List.mem_cons_of_mem _ e)
    cases suf with
    | nil =>
      rcases hrest with e | ⟨r, e⟩
      · rw [e]; rfl
      · rw [e, List.nil_append]; exact afterLiteral_head_ne _ _ _ _ hp
    | cons c cs =>
      by_cases hc : p = c
      · subst hc
        simp only [afterLiteral, if_true] at h
        simp only [List.cons_append, afterLiteral, if_true]
        exact ih cs hps h
      · rw [List.cons_append]; exact afterLiteral_head_ne _ _ _ _ hc

/-- A literal whose only `<` is its first character and which fails at the head of
a non-empty text also fails when that text is followed by nothing or by a text
starting with `<`. -/
theorem afterLiteral_cons_append_none (rest : List Char)
    (hrest : rest = [] ∨ ∃ r, rest = '<' :: r) (p : Char) (ps : List Char) (c : Char)
    (cs : List Char) (hps : '<' ∉ ps) (h : afterLiteral (p :: ps) (c :: cs) = none) :
    afterLiteral (p :: ps) (c :: (cs ++ rest)) = none := by
  by_cases hc : p = c
  · subst hc
    simp only [afterLiteral, if_true] at h
    simp only [afterLiteral, if_true]
    exact afterLiteral_append_none rest hrest ps cs hps h
  · exact afterLiteral_head_ne _ _ _ _ hc

theorem occursIn_cons_false (lit : List Char) (c : Char) (cs : List Char)
    (h : occursIn lit (c :: cs) = false) :
    afterLiteral lit (c :: cs) = none ∧ occursIn lit cs = false := by
  simp only [occursIn, Bool.or_eq_false_iff] at h
  refine ⟨?_, h.2⟩
  cases ha : afterLiteral lit (c :: cs) with
  | none => rfl
  | some r => rw [ha] at h; simp at h

theorem splitTag_append (tag s : List Char) (h : '>' ∉ tag) :
    splitTag (tag ++ '>' :: s) = some (tag, s) := by
  induction tag with
  | nil => simp [splitTag]
  | cons c cs ih =>
    have hc : c ≠ '>' := fun e => h (by rw [e]; exact List.mem_cons_self _ _)
    have hcs : '>' ∉ cs := fun e => h (List.mem_cons_of_mem _ e)
    simp [splitTag, hc, ih hcs]

theorem splitClose_append (body rest : List Char) (h : occursIn "</script>".data body = false) :
    splitClose (body ++ ("</script>".data ++ rest)) = some (body, rest) := by
  have h9 : "</script>".data = '<' :: "/script>".data := rfl
  have hno : '<' ∉ "/script>".data := by decide
  induction body with
  | nil =>
    have h9r : "</script>".data ++ rest = '<' :: ("/script>".data ++ rest) := rfl
    rw [List.nil_append, h9r, splitClose, ← h9r, afterLiteral_append]
  | cons c cs ih =>
    obtain ⟨hc, hcs⟩ := occursIn_cons_false _ c cs h
    rw [h9] at hc
    have hfail := afterLiteral_cons_append_none ('<' :: ("/script>".data ++ rest))
      (Or.inr ⟨_, rfl⟩) '<' "/script>".data c cs hno hc
    have ih2 := ih hcs
    have h9r : "</script>".data ++ rest = '<' :: ("/script>".data ++ rest) := rfl
    rw [h9r] at ih2 ⊢
    rw [List.cons_append, splitClose, h9, hfail, ih2]

theorem matchScriptAt_block (body rest : List Char)
    (h : occursIn "</script>".data body = false) :
    matchScriptAt ("<script".data ++ (" type=\"application/ld+json\"".data ++
        '>' :: (body ++ ("</script>".data ++ rest))))
      = some (body, 7 + 27 + 1 + body.length + 9) := by
  have htag : '>' ∉ " type=\"application/ld+json\"".data := by decide
  have hattr : containsTypeAttr " type=\"application/ld+json\"".data = true := by decide
  have hlen : " type=\"application/ld+json\"".data.length = 27 := by decide
  rw [matchScriptAt, afterLiteral_append]
  simp only [splitTag_append _ _ htag, hattr, if_true, splitClose_append body rest h, hlen]

theorem scanScripts_skip (l rest : List Char) :
    scanScripts l.length (l ++ rest) = scanScripts 0 rest := by
  induction l with
  | nil => rfl
  | cons c cs ih =>
    rw [List.length_cons, List.cons_append, scanScripts]
    exact ih

theorem scanScripts_junk (junk rest : List Char) (hrest : rest = [] ∨ ∃ r, rest = '<' :: r)
    (h : occursIn "<script".data junk = false) :
    scanScripts 0 (junk ++ rest) = scanScripts 0 rest := by
  have h7 : "<script".data = '<' :: "script".data := rfl
  have hno : '<' ∉ "script".data := by decide
  induction junk with
  | nil => rfl
  | cons c cs ih =>
    obtain ⟨hc, hcs⟩ := occursIn_cons_false _ c cs h
    rw [h7] at hc
    have hm : matchScriptAt (c :: (cs ++ rest)) = none := by
      rw [matchScriptAt, h7, afterLiteral_cons_append_none rest hrest _ _ _ _ hno hc]
    rw [List.cons_append, scanScripts, hm]
    exact ih hcs

theorem scanScripts_block (body rest : List Char)
    (h : occursIn "</script>".data body = false) :
    scanScripts 0 ("<script type=\"application/ld+json\">".data ++
        (body ++ ("</script>".data ++ rest)))
      = body :: scanScripts 0 rest := by
  have hopen : "<script type=\"application/ld+json\">".data ++ (body ++ ("</script>".data ++ rest))
      = "<script".data ++ (" type=\"application/ld+json\"".data ++
        '>' :: (body ++ ("</script>".data ++ rest))) := rfl
  have hm := matchScriptAt_block body rest h
  have hcons : "<script".data ++ (" type=\"application/ld+json\"".data ++
        '>' :: (body ++ ("</script>".data ++ rest)))
      = '<' :: (("script".data ++ (" type=\"application/ld+json\"".data ++
        '>' :: (body ++ "</script>".data))) ++ rest) := by
    simp [List.append_assoc]
  have hl : ("script".data ++ (" type=\"application/ld+json\"".data ++
        '>' :: (body ++ "</script>".data))).length = 7 + 27 + 1 + body.length + 9 - 1 := by
    have hgen : ∀ A B C : List Char, A.length = 6 → B.length = 27 → C.length = 9 →
        (A ++ (B ++ '>' :: (body ++ C))).length = 7 + 27 + 1 + body.length + 9 - 1 := by
      intro A B C a b c
      simp only [List.length_append, List.length_cons, a, b, c]
      omega
    exact hgen _ _ _ (by decide) (by decide) (by decide)
  rw [hopen]
  rw [hcons] at hm ⊢
  rw [scanScripts, hm]
  simp only
  rw [← hl, scanScripts_skip]

theorem renderBlocks_cons (b : String × String) (bs : List (String × String)) (tail : String) :
    (renderBlocks (b :: bs) tail).data =
      b.1.data ++ ("<script type=\"application/ld+json\">".data ++
        (b.2.data ++ ("</script>".data ++ (renderBlocks bs tail).data))) := by
  simp [renderBlocks, String.data_append, List.append_assoc]

theorem scanScripts_renderBlocks : ∀ (blocks : List (String × String)) (tail : String),
    (∀ b ∈ blocks, occursIn "<script".data b.1.data = false ∧
      occursIn "</script>".data b.2.data = false) →
    occursIn "<script".data tail.data = false →
    scanScripts 0 (renderBlocks blocks tail).data = blocks.map (fun b => b.2.data) := by
  intro blocks tail
  induction blocks with
  | nil =>
    intro _ ht
    have := scanScripts_junk tail.data [] (Or.inl rfl) ht
    rw [List.append_nil] at this
    simpa [renderBlocks, scanScripts] using this
  | cons b bs ih =>
    intro hb ht
    obtain ⟨h1, h2⟩ := hb b (List.mem_cons_self _ _)
    have hstart : "<script type=\"application/ld+json\">".data ++
        (b.2.data ++ ("</script>".data ++ (renderBlocks bs tail).data))
        = '<' :: ("script type=\"application/ld+json\">".data ++
          (b.2.data ++ ("</script>".data ++ (renderBlocks bs tail).data))) := rfl
    rw [renderBlocks_cons, scanScripts_junk b.1.data _ (Or.inr ⟨_, hstart⟩) h1,
      scanScripts_block _ _ h2, ih (fun c hc => hb c (List.mem_cons_of_mem _ hc)) ht]
    rfl

/-- C9: `findJSONLDRecipe` returns the match of the first script block, in document
order, whose body parses and holds a recipe, every block before it being
skipped (its body does not parse, or parses to a value without recipe); it
returns nothing exactly when every block is skipped. The blocks are the
matches of the script pattern, read left to right: for a document written as
JSON-LD script blocks whose bodies hold no `</script>`, with texts around them
that hold no `<script`, they are the bodies in document order. -/
theorem findJSONLDRecipe_first_parsable_match (unmarshal : String → Option JSON) :
    (∀ (html : String) (r : rawRecipe), findJSONLDRecipe unmarshal html = some r ↔
      ∃ pre content post data, scriptBodies html = pre ++ content :: post ∧
        (∀ c ∈ pre, skipped unmarshal c) ∧ unmarshal content = some data ∧
        findRecipeInJSONLD data = some r) ∧
    (∀ html : String, findJSONLDRecipe unmarshal html = none ↔
      ∀ c ∈ scriptBodies html, skipped unmarshal c) ∧
    (∀ (blocks : List (String × String)) (tail : String),
      (∀ b ∈ blocks, occursIn "<script".data b.1.data = false ∧
        occursIn "</script>".data b.2.data = false) →
      occursIn "<script".data tail.data = false →
      scriptBodies (renderBlocks blocks tail) = blocks.map (fun b => b.2)) := by
  refine ⟨?_, ?_, ?_⟩
  · intro html r
    exact firstRecipe_eq_some unmarshal r (scriptBodies html)
  · intro html
    exact firstRecipe_eq_none unmarshal (scriptBodies html)
  · intro blocks tail hb ht
    rw [scriptBodies, scanScripts_renderBlocks blocks tail hb ht, List.map_map]
    rfl

/-- Witness for C9: two blocks, the first with a body that does not parse. -/
theorem findJSONLDRecipe_first_parsable_match_witness :
    scriptBodies (renderBlocks [("<head>", "broken"), ("<p>", "[]")] "</html>")
      = ["broken", "[]"] :=
  (findJSONLDRecipe_first_parsable_match (fun _ => none)).2.2
    [("<head>", "broken"), ("<p>", "[]")] "</html>" (by decide) (by decide)

/-- C10 (code defect): the script pattern has no case-insensitive flag. A block
whose type attribute is written `APPLICATION/LD+JSON` is not seen at all,
whatever its body holds, while the same block in lower case is searched, with
double or with single quotes alike. -/
theorem findJSONLDRecipe_type_value_case_sensitive (unmarshal : String → Option JSON) :
    findJSONLDRecipe unmarshal
      "<script type=\"APPLICATION/LD+JSON\">\x7b\"@type\":\"Recipe\"\x7d</script>" = none ∧
    findJSONLDRecipe unmarshal
      "<script type=\"application/ld+json\">\x7b\"@type\":\"Recipe\"\x7d</script>"
      = (unmarshal "\x7b\"@type\":\"Recipe\"\x7d").bind findRecipeInJSONLD ∧
    findJSONLDRecipe unmarshal
      "<script type='application/ld+json'>\x7b\"@type\":\"Recipe\"\x7d</script>"
      = (unmarshal "\x7b\"@type\":\"Recipe\"\x7d").bind findRecipeInJSONLD := by
  have h1 : scriptBodies
      "<script type=\"APPLICATION/LD+JSON\">\x7b\"@type\":\"Recipe\"\x7d</script>" = [] := by
    decide
  have h2 : scriptBodies
      "<script type=\"application/ld+json\">\x7b\"@type\":\"Recipe\"\x7d</script>"
      = ["\x7b\"@type\":\"Recipe\"\x7d"] := by decide
  have h3 : scriptBodies
      "<script type='application/ld+json'>\x7b\"@type\":\"Recipe\"\x7d</script>"
      = ["\x7b\"@type\":\"Recipe\"\x7d"] := by decide
  have hone : ∀ b : String,
      firstRecipe unmarshal [b] = (unmarshal b).bind findRecipeInJSONLD := by
    intro b
    cases hu : unmarshal b with
    | none => rw [firstRecipe_cons_none _ _ _ hu]; rfl
    | some data =>
      cases hf : findRecipeInJSONLD data with
      | some r => rw [firstRecipe_cons_hit _ _ _ _ _ hu hf]; simp [hf]
      | none => rw [firstRecipe_cons_miss _ _ _ _ hu hf]; simp [hf, firstRecipe]
  refine ⟨?_, ?_, ?_⟩
  · rw [findJSONLDRecipe, h1]; rfl
  · rw [findJSONLDRecipe, h2, hone]
  · rw [findJSONLDRecipe, h3, hone]

/-! ### Handler -/

/-- C11: when `findJSONLDRecipe` returns a recipe, the extraction uses exactly that
recipe, whatever `findMicrodataRecipe` would return on the document: the
located recipe and the reply are those of the JSON-LD recipe. The microdata
locator decides only when `findJSONLDRecipe` returns nothing. On a document
holding a JSON-LD recipe named `Linked` and microdata named `Inline`, the
located recipe is the JSON-LD one although the microdata locator alone finds
the other. -/
theorem locateRecipe_prefers_jsonld (unmarshal : String → Option JSON) :
    (∀ (html : String) (r : rawRecipe), findJSONLDRecipe unmarshal html = some r →
      locateRecipe unmarshal html = some r ∧
      ∀ rawURL, extractFromPage unmarshal html rawURL = replyFor (some r) rawURL) ∧
    (∀ html : String, findJSONLDRecipe unmarshal html = none →
      locateRecipe unmarshal html = findMicrodataRecipe html) ∧
    (unmarshal "\x7b\"@type\":\"Recipe\",\"name\":\"Linked\"\x7d"
        = some (.obj [("@type", .str "Recipe"), ("name", .str "Linked")]) →
      (locateRecipe unmarshal
        ("<script type=\"application/ld+json\">\x7b\"@type\":\"Recipe\",\"name\":\"Linked\"\x7d</script>"
          ++ "<div itemtype=\"https://schema.org/Recipe\"><h1 itemprop=\"name\">Inline</h1></div>")).map
          rawRecipe.Name = some "Linked" ∧
      (findMicrodataRecipe
        ("<script type=\"application/ld+json\">\x7b\"@type\":\"Recipe\",\"name\":\"Linked\"\x7d</script>"
          ++ "<div itemtype=\"https://schema.org/Recipe\"><h1 itemprop=\"name\">Inline</h1></div>")).map
          rawRecipe.Name = some "Inline") := by
  refine ⟨?_, ?_, ?_⟩
  · intro html r h
    have hl : locateRecipe unmarshal html = some r := by
      simp [locateRecipe, h]
    exact ⟨hl, fun rawURL => by rw [extractFromPage, hl]⟩
  · intro html h
    simp [locateRecipe, h]
  · intro hu
    have hb : scriptBodies
        ("<script type=\"application/ld+json\">\x7b\"@type\":\"Recipe\",\"name\":\"Linked\"\x7d</script>"
          ++ "<div itemtype=\"https://schema.org/Recipe\"><h1 itemprop=\"name\">Inline</h1></div>")
        = ["\x7b\"@type\":\"Recipe\",\"name\":\"Linked\"\x7d"] := by decide
    have hf : findRecipeInJSONLD (.obj [("@type", .str "Recipe"), ("name", .str "Linked")])
        = some (parseRawRecipe [("@type", .str "Recipe"), ("name", .str "Linked")]) := rfl
    constructor
    · rw [locateRecipe, findJSONLDRecipe, hb, firstRecipe_cons_hit _ _ _ _ _ hu hf]
      rfl
    · decide

/-- Witness for C11: a document whose only block holds a recipe. -/
theorem locateRecipe_prefers_jsonld_witness :
    locateRecipe (fun _ => some (.obj [("@type", .str "Recipe")]))
        "<script type=\"application/ld+json\">x</script>"
      = some (parseRawRecipe [("@type", .str "Recipe")]) :=
  ((locateRecipe_prefers_jsonld (fun _ => some (.obj [("@type", .str "Recipe")]))).1
    "<script type=\"application/ld+json\">x</script>" _ (by rfl)).1

/-! ### Field normalizers -/

theorem elemStrings_map_str (strs : List String) :
    elemStrings (strs.map .str) = some strs := by
  induction strs with
  | nil => rfl
  | cons s ss ih => simp [elemStrings, elemString, ih]

theorem elemStrings_entryText : ∀ items : List JSON,
    (∀ x ∈ items, x = .null ∨ ∃ s, x = .str s) →
    elemStrings items = some (items.map entryText) := by
  intro items
  induction items with
  | nil => intro _; rfl
  | cons x xs ih =>
    intro hall
    have hxs := ih (fun y hy => hall y (List.mem_cons_of_mem _ hy))
    rcases hall x (List.mem_cons_self _ _) with hx | ⟨s, hx⟩
    · subst hx; simp [elemStrings, elemString, hxs, entryText]
    · subst hx; simp [elemStrings, elemString, hxs, entryText]

theorem elemStrings_eq_none : ∀ items : List JSON,
    (∃ x ∈ items, x ≠ .null ∧ ∀ s, x ≠ .str s) → elemStrings items = none := by
  intro items
  induction items with
  | nil => rintro ⟨x, hx, _⟩; simp at hx
  | cons y ys ih =>
    rintro ⟨x, hx, hn, hs⟩
    rcases List.mem_cons.1 hx with e | e
    · subst e
      have : elemString x = none := by
        cases x with
        | null => exact absurd rfl hn
        | str s => exact absurd rfl (hs s)
        | bool _ => rfl
        | num _ => rfl
        | arr _ => rfl
        | obj _ => rfl
      simp [elemStrings, this]
    · have := ih ⟨x, e, hn, hs⟩
      rw [elemStrings, this]
      cases elemString y <;> rfl

theorem ingredientsOfStrings_eq (strs : List String) : ∀ acc : List Ingredient,
    ingredientsOfStrings strs acc = acc ++ keptIngredients strs := by
  induction strs with
  | nil => intro acc; simp [ingredientsOfStrings, keptIngredients]
  | cons s ss ih =>
    intro acc
    by_cases h : trimSpace s = ""
    · simp [ingredientsOfStrings, keptIngredients, h, ih]
    · simp [ingredientsOfStrings, keptIngredients, h, ih]

theorem unmarshalStringSlice_other (v : JSON) (hnull : v ≠ .null)
    (harr : ∀ items, v = .arr items → ∃ x ∈ items, x ≠ .null ∧ ∀ s, x ≠ .str s) :
    unmarshalStringSlice v = none := by
  cases v with
  | null => exact absurd rfl hnull
  | arr items => exact elemStrings_eq_none items (harr items rfl)
  | bool _ => rfl
  | num _ => rfl
  | str _ => rfl
  | obj _ => rfl

theorem unmarshalString_other (v : JSON) (hnull : v ≠ .null) (hstr : ∀ s, v ≠ .str s) :
    unmarshalString v = none := by
  cases v with
  | null => exact absurd rfl hnull
  | str s => exact absurd rfl (hstr s)
  | bool _ => rfl
  | num _ => rfl
  | arr _ => rfl
  | obj _ => rfl

/-- C12 (as amended): on a JSON list of strings `extractIngredients` returns the
trimmed strings that are not empty, in their original order, duplicates kept;
a list whose entries are strings or `null` is read the same way, a `null`
entry counting as an empty string; on a single string it returns the one
trimmed entry when that is not empty; on every other value (absent, `null`,
number, boolean, object, or a list holding an entry that is neither a string
nor `null`) it returns the empty list. -/
theorem extractIngredients_shapes :
    (∀ strs : List String,
      extractIngredients (some (.arr (strs.map .str))) = keptIngredients strs) ∧
    (∀ strs : List String, ∀ i ∈ keptIngredients strs, i.Text ≠ "") ∧
    (∀ items : List JSON, (∀ x ∈ items, x = .null ∨ ∃ s, x = .str s) →
      extractIngredients (some (.arr items)) = keptIngredients (items.map entryText)) ∧
    (∀ s : String, extractIngredients (some (.str s))
      = if trimSpace s ≠ "" then [⟨trimSpace s⟩] else []) ∧
    (∀ v : JSON, (∀ s, v ≠ .str s) →
      (∀ items, v = .arr items → ∃ x ∈ items, x ≠ .null ∧ ∀ s, x ≠ .str s) →
      extractIngredients (some v) = []) ∧
    extractIngredients none = [] := by
  refine ⟨?_, ?_, ?_, ?_, ?_, rfl⟩
  · intro strs
    simp [extractIngredients, unmarshalStringSlice, elemStrings_map_str,
      ingredientsOfStrings_eq]
  · intro strs i hi
    simp only [keptIngredients, List.mem_map, List.mem_filter, decide_eq_true_eq] at hi
    obtain ⟨t, ⟨_, ht⟩, rfl⟩ := hi
    exact ht
  · intro items hall
    simp [extractIngredients, unmarshalStringSlice, elemStrings_entryText items hall,
      ingredientsOfStrings_eq]
  · intro s
    simp [extractIngredients, unmarshalStringSlice, unmarshalString]
  · intro v hstr harr
    by_cases hnull : v = .null
    · subst hnull; rfl
    · simp [extractIngredients, unmarshalStringSlice_other v hnull harr,
        unmarshalString_other v hnull hstr]

/-- Witness for C12: a list with a boolean entry gives no ingredient. -/
theorem extractIngredients_shapes_witness :
    extractIngredients (some (.arr [.str "flour", .bool true])) = [] :=
  extractIngredients_shapes.2.2.2.2.1 (.arr [.str "flour", .bool true])
    (fun s h => by cases h)
    (fun items h => by
      cases h
      exact ⟨.bool true, List.mem_cons_of_mem _ (List.mem_cons_self _ _),
        (fun e => by cases e), (fun s e => by cases e)⟩)

/-- Counterexample to C12 as stated: the list `["flour", null]` is not a list of
strings and not a string, yet `extractIngredients` returns the entry `flour`
and not the empty list. -/
theorem extractIngredients_list_with_null :
    (¬ ∃ strs : List String, [JSON.str "flour", JSON.null] = strs.map JSON.str) ∧
    extractIngredients (some (.arr [.str "flour", .null])) = [⟨"flour"⟩] ∧
    extractIngredients (some (.arr [.str "flour", .null])) ≠ [] := by
  refine ⟨?_, by decide, by decide⟩
  rintro ⟨strs, h⟩
  match strs, h with
  | [], h => cases h
  | [_], h => cases h
  | _ :: _ :: _, h =>
    simp only [List.map_cons, List.cons.injEq] at h
    exact absurd h.2.1 (by intro e; cases e)

/-! ### Sections of steps -/

theorem elemMaps_map_obj (subs : List Obj) : elemMaps (subs.map .obj) = some subs := by
  induction subs with
  | nil => rfl
  | cons s ss ih => simp [elemMaps, unmarshalMap, ih]

theorem stepTexts_append (xs ys : List Obj) : stepTexts (xs ++ ys) = stepTexts xs ++ stepTexts ys := by
  simp [stepTexts]

theorem stepsOfSubItems_spec (subs : List Obj) : ∀ acc : List Step,
    (stepsOfSubItems subs acc).map Step.Text = acc.map Step.Text ++ stepTexts subs ∧
    (stepsOfSubItems subs acc).map Step.Position
      = acc.map Step.Position ++ List.range' (acc.length + 1) (stepTexts subs).length := by
  induction subs with
  | nil => intro acc; simp [stepsOfSubItems, stepTexts]
  | cons sub rest ih =>
    intro acc
    by_cases h : getStepText sub = ""
    · have hst : stepTexts (sub :: rest) = stepTexts rest := by simp [stepTexts, h]
      rw [hst]
      simp only [stepsOfSubItems, h, ne_eq, not_true_eq_false, if_false]
      exact ih acc
    · have hst : stepTexts (sub :: rest) = getStepText sub :: stepTexts rest := by
        simp [stepTexts, h]
      rw [hst]
      simp only [stepsOfSubItems, h, ne_eq, not_false_eq_true, if_true]
      obtain ⟨h1, h2⟩ := ih (acc ++ [⟨getStepText sub, acc.length + 1⟩])
      constructor
      · rw [h1]; simp
      · rw [h2]
        simp only [List.map_append, List.map_cons, List.map_nil, List.length_append,
          List.length_cons, List.length_nil, List.append_assoc, List.singleton_append]
        rw [List.range'_succ]

theorem stepsOfObjects_sections : ∀ (sections : List (Obj × List Obj)) (i : Nat)
    (acc : List Step),
    (∀ s ∈ sections, lookup s.1 "itemListElement" = some (.arr (s.2.map .obj))) →
    (stepsOfObjects i (sections.map (fun s => s.1)) acc).map Step.Text
      = acc.map Step.Text ++ stepTexts (sections.flatMap (fun s => s.2)) ∧
    (stepsOfObjects i (sections.map (fun s => s.1)) acc).map Step.Position
      = acc.map Step.Position ++
        List.range' (acc.length + 1) (stepTexts (sections.flatMap (fun s => s.2))).length := by
  intro sections
  induction sections with
  | nil => intro i acc _; simp [stepsOfObjects, stepTexts]
  | cons s rest ih =>
    intro i acc hall
    have hs := hall s (List.mem_cons_self _ _)
    have hrest := fun t ht => hall t (List.mem_cons_of_mem _ ht)
    obtain ⟨a1, a2⟩ := stepsOfSubItems_spec s.2 acc
    obtain ⟨b1, b2⟩ := ih (i + 1) (stepsOfSubItems s.2 acc) hrest
    have hlen : (stepsOfSubItems s.2 acc).length = acc.length + (stepTexts s.2).length := by
      have := congrArg List.length a1
      simpa using this
    simp only [List.map_cons, stepsOfObjects, hs, unmarshalMapSlice, elemMaps_map_obj,
      List.flatMap_cons, stepTexts_append, List.length_append]
    constructor
    · rw [b1, a1, List.append_assoc]
    · rw [b2, a2, hlen, List.append_assoc]
      congr 1
      have := List.range'_append (acc.length + 1) (stepTexts s.2).length
        (stepTexts (rest.flatMap (fun s => s.2))).length 1
      rw [Nat.one_mul] at this
      rw [← Nat.add_comm (stepTexts (rest.flatMap (fun s => s.2))).length, ← this]
      congr 2
      omega

/-- C13 (as amended): on a list of section objects, each carrying as
`itemListElement` a list whose sub-items are all objects, `extractSteps` emits one step per sub-item whose step text is not
empty, in document order across the sections, with positions exactly 1 to N,
N being the number of those texts over all sections: the counter runs on from
one section to the next. -/
theorem extractSteps_sections (sections : List (Obj × List Obj))
    (h : ∀ s ∈ sections, lookup s.1 "itemListElement" = some (.arr (s.2.map .obj))) :
    (extractSteps (some (.arr (sections.map (fun s => .obj s.1))))).map Step.Text
      = stepTexts (sections.flatMap (fun s => s.2)) ∧
    (extractSteps (some (.arr (sections.map (fun s => .obj s.1))))).map Step.Position
      = List.range' 1 (stepTexts (sections.flatMap (fun s => s.2))).length := by
  cases sections with
  | nil => simp [extractSteps, unmarshalStringSlice, elemStrings, stepsOfStrings, stepTexts]
  | cons s rest =>
    have hm : elemMaps ((s :: rest).map (fun s => JSON.obj s.1)) = some ((s :: rest).map (fun s => s.1)) := by
      have := elemMaps_map_obj ((s :: rest).map (fun s => s.1))
      rwa [List.map_map] at this
    have hstr : elemStrings ((s :: rest).map (fun s => JSON.obj s.1)) = none := by
      simp [elemStrings, elemString]
    have := stepsOfObjects_sections (s :: rest) 0 [] h
    simp only [List.map_nil, List.nil_append, List.length_nil, Nat.zero_add] at this
    simp only [extractSteps, unmarshalStringSlice, hstr, unmarshalString, unmarshalMapSlice, hm]
    exact this

/-- Witness for C13: two sections, the second starting with a step without text. -/
theorem extractSteps_sections_witness :
    (extractSteps (some (.arr ([
        ([("itemListElement", .arr ([[("text", .str "a")], [("text", .str "b")]].map .obj))],
          [[("text", .str "a")], [("text", .str "b")]]),
        ([("itemListElement", .arr ([[("text", .str "")], [("name", .str "c")]].map .obj))],
          [[("text", .str "")], [("name", .str "c")]])].map
        (fun (s : Obj × List Obj) => JSON.obj s.1))))).map Step.Position
      = List.range' 1 (stepTexts ([
        (([("itemListElement", .arr ([[("text", .str "a")], [("text", .str "b")]].map .obj))] : Obj),
          ([[("text", .str "a")], [("text", .str "b")]] : List Obj)),
        ([("itemListElement", .arr ([[("text", .str "")], [("name", .str "c")]].map .obj))],
          [[("text", .str "")], [("name", .str "c")]])].flatMap (fun s => s.2))).length :=
  (extractSteps_sections _ (by
    intro s hs
    simp only [List.mem_cons, List.mem_singleton, List.not_mem_nil, or_false] at hs
    rcases hs with e | e <;> (subst e; rfl))).2

/-- Counterexample to C13 as stated, on the instructions
`[{"itemListElement":[{"text":"a"},"tip"]}]`: the one section carries an
`itemListElement` list of two sub-items, the first with the non-empty step
text `a`; the string `tip` makes the decoding of the list into objects fail,
the section is passed over whole and no step is emitted, where the claim
requires one step, at position 1. -/
theorem extractSteps_drops_section_with_non_object_sub_item :
    lookup [("itemListElement", .arr [.obj [("text", .str "a")], .str "tip"])]
      "itemListElement" = some (.arr [.obj [("text", .str "a")], .str "tip"]) ∧
    getStepText [("text", .str "a")] = "a" ∧
    extractSteps (some (.arr
      [.obj [("itemListElement", .arr [.obj [("text", .str "a")], .str "tip"])]])) = [] := by
  refine ⟨rfl, ?_, ?_⟩
  · decide
  · decide

/-! ### Step text -/

/-- C14: `getStepText` returns the trimmed `text` field when that field is a string
that is not empty; when `text` is absent or is the empty string it returns the
trimmed `name` field if that is a string (nothing but the empty string for an
empty one); and it returns the empty string when neither field holds a string
that is not empty. -/
theorem getStepText_text_then_name (obj : Obj) :
    (∀ s, lookup obj "text" = some (.str s) → s ≠ "" → getStepText obj = trimSpace s) ∧
    ((lookup obj "text" = none ∨ lookup obj "text" = some (.str "")) →
      ∀ n, lookup obj "name" = some (.str n) → getStepText obj = trimSpace n) ∧
    ((∀ s, lookup obj "text" = some (.str s) → s = "") →
      (∀ n, lookup obj "name" = some (.str n) → n = "") → getStepText obj = "") := by
  have htrim : trimSpace "" = "" := by decide
  refine ⟨?_, ?_, ?_⟩
  · intro s hs hne
    simp [getStepText, hs, unmarshalString, hne]
  · intro ht n hn
    by_cases hne : n = ""
    · subst hne
      rcases ht with ht | ht <;> simp [getStepText, ht, hn, unmarshalString, htrim]
    · rcases ht with ht | ht <;> simp [getStepText, ht, hn, unmarshalString, hne]
  · intro ht hn
    have hname : (match lookup obj "name" with
        | some nameRaw =>
          match unmarshalString nameRaw with
          | some name => if name ≠ "" then trimSpace name else ""
          | none => ""
        | none => "") = "" := by
      cases hl : lookup obj "name" with
      | none => rfl
      | some v =>
        cases v with
        | str n => simp [unmarshalString, hn n hl]
        | null => simp [unmarshalString]
        | bool _ => rfl
        | num _ => rfl
        | arr _ => rfl
        | obj _ => rfl
    unfold getStepText
    simp only [hname]
    cases hl : lookup obj "text" with
    | none => rfl
    | some v =>
      cases v with
      | str s => simp [unmarshalString, ht s hl]
      | null => simp [unmarshalString]
      | bool _ => rfl
      | num _ => rfl
      | arr _ => rfl
      | obj _ => rfl

/-- Witness for C14: a step object with an empty `text` and a `name`. -/
theorem getStepText_text_then_name_witness :
    getStepText [("text", .str ""), ("name", .str " Mix ")] = trimSpace " Mix " :=
  (getStepText_text_then_name [("text", .str ""), ("name", .str " Mix ")]).2.1
    (Or.inr rfl) " Mix " rfl

/-! ### Servings -/

/-- C16 (as amended): `extractServings` returns the first element unchanged, without
trimming, on a non-empty list of strings; a list whose entries are strings or
`null` is read the same way, a `null` entry counting as the empty string; it
returns the string itself unchanged on a single string; and it returns the
empty string on every other value (absent, `null`, the empty list, number,
boolean, object, or a list holding an entry that is neither a string nor
`null`). -/
theorem extractServings_shapes :
    (∀ (s : String) (strs : List String),
      extractServings (some (.arr ((s :: strs).map .str))) = s) ∧
    (∀ (x : JSON) (items : List JSON), (∀ y ∈ x :: items, y = .null ∨ ∃ s, y = .str s) →
      extractServings (some (.arr (x :: items))) = entryText x) ∧
    (∀ s : String, extractServings (some (.str s)) = s) ∧
    (∀ v : JSON, (∀ s, v ≠ .str s) →
      (∀ items, v = .arr items → items = [] ∨ ∃ x ∈ items, x ≠ .null ∧ ∀ s, x ≠ .str s) →
      extractServings (some v) = "") ∧
    extractServings none = "" := by
  refine ⟨?_, ?_, ?_, ?_, rfl⟩
  · intro s strs
    have := elemStrings_map_str (s :: strs)
    simp only [List.map_cons] at this
    simp [extractServings, unmarshalStringSlice, this]
  · intro x items hall
    have := elemStrings_entryText (x :: items) hall
    simp only [List.map_cons] at this
    simp [extractServings, unmarshalStringSlice, this]
  · intro s
    simp [extractServings, unmarshalStringSlice, unmarshalString]
  · intro v hstr harr
    cases v with
    | null => rfl
    | bool _ => rfl
    | num _ => rfl
    | obj _ => rfl
    | str s => exact absurd rfl (hstr s)
    | arr items =>
      rcases harr items rfl with e | e
      · subst e; rfl
      · simp [extractServings, unmarshalStringSlice, elemStrings_eq_none items e,
          unmarshalString]

/-- Witness for C16: a list whose first entry is `null`. -/
theorem extractServings_shapes_witness :
    extractServings (some (.arr [.null, .str "4"])) = entryText .null :=
  extractServings_shapes.2.1 .null [.str "4"] (fun y hy => by
    rcases List.mem_cons.1 hy with e | e
    · exact Or.inl e
    · rcases List.mem_cons.1 e with e | e
      · exact Or.inr ⟨"4", e⟩
      · simp at e)

/-- Counterexample to C16 as stated: the list `[" 4 ", null]` is neither a list of
strings nor a string, yet `extractServings` returns its first entry and not the
empty string. -/
theorem extractServings_list_with_null :
    (¬ ∃ strs : List String, [JSON.str " 4 ", JSON.null] = strs.map JSON.str) ∧
    extractServings (some (.arr [.str " 4 ", .null])) = " 4 " ∧
    extractServings (some (.arr [.str " 4 ", .null])) ≠ "" := by
  refine ⟨?_, by decide, by decide⟩
  rintro ⟨strs, h⟩
  match strs, h with
  | [], h => cases h
  | [_], h => cases h
  | _ :: _ :: _, h =>
    simp only [List.map_cons, List.cons.injEq] at h
    exact absurd h.2.1 (by intro e; cases e)

/-! ### Image URL -/

theorem urlOfFields_no_key (fields : Obj) (h : ∀ kv ∈ fields, isURLKey kv.1 = false) :
    ∀ cur, urlOfFields cur fields = some cur := by
  induction fields with
  | nil => intro cur; rfl
  | cons kv rest ih =>
    intro cur
    obtain ⟨k, v⟩ := kv
    have hk : isURLKey k = false := h (k, v) (List.mem_cons_self _ _)
    simp only [urlOfFields, hk, Bool.false_eq_true, if_false]
    exact ih (fun kv hkv => h kv (List.mem_cons_of_mem _ hkv)) cur

theorem urlOfFields_strings (fields : Obj)
    (h : ∀ kv ∈ fields, isURLKey kv.1 = true → ∃ s, kv.2 = .str s) :
    ∀ cur, ∃ u, urlOfFields cur fields = some u := by
  induction fields with
  | nil => intro cur; exact ⟨cur, rfl⟩
  | cons kv rest ih =>
    intro cur
    obtain ⟨k, v⟩ := kv
    have hrest := ih (fun kv hkv => h kv (List.mem_cons_of_mem _ hkv))
    by_cases hk : isURLKey k = true
    · obtain ⟨s, hs⟩ := h (k, v) (List.mem_cons_self _ _) hk
      simp only at hs
      subst hs
      simp only [urlOfFields, hk, if_true]
      exact hrest s
    · simp only [urlOfFields, hk, if_false]
      exact hrest cur

theorem urlOfFields_last (pre post : Obj) (k u : String) (hk : isURLKey k = true)
    (hpre : ∀ kv ∈ pre, isURLKey kv.1 = true → ∃ s, kv.2 = .str s)
    (hpost : ∀ kv ∈ post, isURLKey kv.1 = false) :
    ∀ cur, urlOfFields cur (pre ++ (k, .str u) :: post) = some u := by
  induction pre with
  | nil =>
    intro cur
    simp only [List.nil_append, urlOfFields, hk, if_true]
    exact urlOfFields_no_key post hpost u
  | cons kv rest ih =>
    intro cur
    obtain ⟨k2, v⟩ := kv
    have hrest := ih (fun kv hkv => hpre kv (List.mem_cons_of_mem _ hkv))
    by_cases hk2 : isURLKey k2 = true
    · obtain ⟨s, hs⟩ := hpre (k2, v) (List.mem_cons_self _ _) hk2
      simp only at hs
      subst hs
      simp only [List.cons_append, urlOfFields, hk2, if_true]
      exact hrest s
    · simp only [List.cons_append, urlOfFields, hk2, if_false]
      exact hrest cur

theorem elemURLStructs_objects (objs : List Obj)
    (h : ∀ o ∈ objs, ∀ kv ∈ o, isURLKey kv.1 = true → ∃ s, kv.2 = .str s) :
    ∃ us, elemURLStructs (objs.map .obj) = some us := by
  induction objs with
  | nil => exact ⟨[], rfl⟩
  | cons o rest ih =>
    obtain ⟨us, hus⟩ := ih (fun p hp => h p (List.mem_cons_of_mem _ hp))
    obtain ⟨u, hu⟩ := urlOfFields_strings o (h o (List.mem_cons_self _ _)) ""
    exact ⟨u :: us, by simp [elemURLStructs, unmarshalURLStruct, hu, hus]⟩

theorem extractImageURL_obj (fields : Obj) (u : String) (h : urlOfFields "" fields = some u) :
    extractImageURL (some (.obj fields)) = u := by
  by_cases hu : u = ""
  · simp [extractImageURL, unmarshalString, unmarshalStringSlice, unmarshalURLStructSlice,
      unmarshalURLStruct, h, hu]
  · simp [extractImageURL, unmarshalString, unmarshalStringSlice, unmarshalURLStructSlice,
      unmarshalURLStruct, h, hu]

theorem extractImageURL_objects (first : Obj) (others : List Obj) (u : String)
    (h : urlOfFields "" first = some u)
    (hothers : ∀ o ∈ others, ∀ kv ∈ o, isURLKey kv.1 = true → ∃ s, kv.2 = .str s) :
    extractImageURL (some (.arr (.obj first :: others.map .obj))) = u := by
  obtain ⟨us, hus⟩ := elemURLStructs_objects others hothers
  have hstr : elemStrings (.obj first :: others.map .obj) = none := by
    simp [elemStrings, elemString]
  simp [extractImageURL, unmarshalString, unmarshalStringSlice, hstr, unmarshalURLStructSlice,
    unmarshalURLStruct, elemURLStructs, h, hus]

/-- C15 (as amended): `extractImageURL` resolves the raw image value by the first
matching shape in the order: a plain string gives itself; a non-empty list of
strings gives its first element (a list of strings and `null` entries its first
entry, `null` counting as the empty string); a single object gives the string
held by its `url` field, the key being matched without regard to letter case
and the last occurrence counting; a non-empty list of objects gives the `url`
of its first element, or the empty string when that element has none, whether
or not the other elements carry one, provided every `url` field in the list
holds a string; an absent value, `null`, a number, a boolean, the empty list
and an object without `url` field give the empty string. In particular
`{"url": "https://x/y.jpg"}` gives `https://x/y.jpg`, `["a.jpg","b.jpg"]` gives
`a.jpg` and `[{"url":"c.jpg"}]` gives `c.jpg`. -/
theorem extractImageURL_shapes :
    (∀ s : String, extractImageURL (some (.str s)) = s) ∧
    (∀ (s : String) (strs : List String),
      extractImageURL (some (.arr ((s :: strs).map .str))) = s) ∧
    (∀ (x : JSON) (items : List JSON), (∀ y ∈ x :: items, y = .null ∨ ∃ s, y = .str s) →
      extractImageURL (some (.arr (x :: items))) = entryText x) ∧
    (∀ (pre post : Obj) (k u : String), isURLKey k = true →
      (∀ kv ∈ pre, isURLKey kv.1 = true → ∃ s, kv.2 = .str s) →
      (∀ kv ∈ post, isURLKey kv.1 = false) →
      extractImageURL (some (.obj (pre ++ (k, .str u) :: post))) = u) ∧
    (∀ (pre post : Obj) (k u : String) (others : List Obj), isURLKey k = true →
      (∀ kv ∈ pre, isURLKey kv.1 = true → ∃ s, kv.2 = .str s) →
      (∀ kv ∈ post, isURLKey kv.1 = false) →
      (∀ o ∈ others, ∀ kv ∈ o, isURLKey kv.1 = true → ∃ s, kv.2 = .str s) →
      extractImageURL (some (.arr (.obj (pre ++ (k, .str u) :: post) :: others.map .obj))) = u) ∧
    (∀ (first : Obj) (others : List Obj), (∀ kv ∈ first, isURLKey kv.1 = false) →
      (∀ o ∈ others, ∀ kv ∈ o, isURLKey kv.1 = true → ∃ s, kv.2 = .str s) →
      extractImageURL (some (.arr (.obj first :: others.map .obj))) = "") ∧
    (extractImageURL none = "" ∧ extractImageURL (some .null) = "" ∧
      (∀ lit, extractImageURL (some (.num lit)) = "") ∧
      (∀ b, extractImageURL (some (.bool b)) = "") ∧
      extractImageURL (some (.arr [])) = "" ∧
      (∀ fields : Obj, (∀ kv ∈ fields, isURLKey kv.1 = false) →
        extractImageURL (some (.obj fields)) = "")) ∧
    (extractImageURL (some (.obj [("url", .str "https://x/y.jpg")])) = "https://x/y.jpg" ∧
      extractImageURL (some (.arr [.str "a.jpg", .str "b.jpg"])) = "a.jpg" ∧
      extractImageURL (some (.arr [.obj [("url", .str "c.jpg")]])) = "c.jpg") := by
  refine ⟨?_, ?_, ?_, ?_, ?_, ?_, ⟨rfl, rfl, fun _ => rfl, fun _ => rfl, rfl, ?_⟩,
    ⟨by decide, by decide, by decide⟩⟩
  · intro s
    simp [extractImageURL, unmarshalString]
  · intro s strs
    have := elemStrings_map_str (s :: strs)
    simp only [List.map_cons] at this
    simp [extractImageURL, unmarshalString, unmarshalStringSlice, this]
  · intro x items hall
    have := elemStrings_entryText (x :: items) hall
    simp only [List.map_cons] at this
    simp [extractImageURL, unmarshalString, unmarshalStringSlice, this]
  · intro pre post k u hk hpre hpost
    exact extractImageURL_obj _ u (urlOfFields_last pre post k u hk hpre hpost "")
  · intro pre post k u others hk hpre hpost hothers
    exact extractImageURL_objects _ others u (urlOfFields_last pre post k u hk hpre hpost "")
      hothers
  · intro first others hfirst hothers
    exact extractImageURL_objects first others "" (urlOfFields_no_key first hfirst "") hothers
  · intro fields hfields
    exact extractImageURL_obj fields "" (urlOfFields_no_key fields hfields "")

/-- Witness for C15: an image object with a type and a `url`. -/
theorem extractImageURL_shapes_witness :
    extractImageURL (some (.obj ([("@type", .str "ImageObject")] ++
        ("url", .str "https://x/y.jpg") :: [("width", .num "800")]))) = "https://x/y.jpg" :=
  extractImageURL_shapes.2.2.2.1 [("@type", .str "ImageObject")] [("width", .num "800")]
    "url" "https://x/y.jpg" (by decide)
    (fun kv hkv h => by
      rcases List.mem_cons.1 hkv with e | e
      · subst e; exact absurd h (by decide)
      · simp at e)
    (fun kv hkv => by
      rcases List.mem_cons.1 hkv with e | e
      · subst e; decide
      · simp at e)

/-- Counterexample to C15 as stated: three values that match none of the four
shapes of the claim and yet do not give the empty string: a list of objects
whose second element carries no `url`; an object whose key is written `URL`;
a list of a string and a `null`. -/
theorem extractImageURL_beyond_the_shapes :
    lookup [] "url" = none ∧
    extractImageURL (some (.arr [.obj [("url", .str "c.jpg")], .obj []])) = "c.jpg" ∧
    lookup [("URL", .str "x.jpg")] "url" = none ∧
    extractImageURL (some (.obj [("URL", .str "x.jpg")])) = "x.jpg" ∧
    extractImageURL (some (.arr [.str "a.jpg", .null])) = "a.jpg" := by
  refine ⟨rfl, by decide, rfl, by decide, by decide⟩

/-! ### Microdata locator -/

/-- C17 (code defect): the first alternative of the instruction pattern is written
`&itemprop`, with an ampersand, so an element carrying `itemprop="text"` is
not matched. On a recipe whose only instruction is
`<span itemprop="text">Mix well</span>` the instruction list is empty and no
step results; the same text under `itemprop="recipeInstructions"` is found, and
so is `itemprop="text"` once an ampersand stands before it. -/
theorem findMicrodataRecipe_itemprop_text_not_matched :
    (fromRecipeTag
      ("<div itemscope itemtype=\"https://schema.org/Recipe\"><h1 itemprop=\"name\">Soup</h1>"
        ++ "<span itemprop=\"text\">Mix well</span></div>").data).map
        (fun w => microdataInstructions (searchRange w)) = some [] ∧
    (findMicrodataRecipe
      ("<div itemscope itemtype=\"https://schema.org/Recipe\"><h1 itemprop=\"name\">Soup</h1>"
        ++ "<span itemprop=\"text\">Mix well</span></div>")).map
        (fun r => (r.Name, extractSteps r.RecipeInstructions)) = some ("Soup", []) ∧
    (findMicrodataRecipe
      ("<div itemscope itemtype=\"https://schema.org/Recipe\"><h1 itemprop=\"name\">Soup</h1>"
        ++ "<span itemprop=\"recipeInstructions\">Mix well</span></div>")).map
        (fun r => (r.Name, extractSteps r.RecipeInstructions)) = some ("Soup", [⟨"Mix well", 1⟩]) ∧
    (findMicrodataRecipe
      ("<div itemscope itemtype=\"https://schema.org/Recipe\"><h1 itemprop=\"name\">Soup</h1>"
        ++ "<span &itemprop=\"text\">Mix well</span></div>")).map
        (fun r => (r.Name, extractSteps r.RecipeInstructions)) = some ("Soup", [⟨"Mix well", 1⟩]) := by
  refine ⟨?_, ?_, ?_, ?_⟩ <;> decide

theorem findMicrodataRecipe_eq (html : String) :
    findMicrodataRecipe html =
      match fromRecipeTag html.data with
      | none => none
      | some w =>
        if microdataName (searchRange w) = "" ∧ (microdataIngredients (searchRange w)).length = 0
        then none
        else
          some
            { Name := microdataName (searchRange w)
              Description := microdataDescription (searchRange w)
              RecipeIngredient :=
                if (microdataIngredients (searchRange w)).length > 0 then
                  some (marshalStrings (microdataIngredients (searchRange w)))
                else none
              RecipeInstructions :=
                if (microdataInstructions (searchRange w)).length > 0 then
                  some (marshalStrings (microdataInstructions (searchRange w)))
                else none
              PrepTime := ""
              CookTime := ""
              TotalTime := ""
              RecipeYield := none
              Image := none } := rfl

/-- C18 (as amended): `findMicrodataRecipe` returns not found exactly when the
document has no recipe item type tag, or the title is empty and no
`recipeIngredient` element was matched in the window. Whenever it returns a
recipe, the title of that recipe is not empty or its ingredient field holds the
non-empty list of the matched element texts (texts that may be blank). -/
theorem findMicrodataRecipe_guard (html : String) :
    (findMicrodataRecipe html = none ↔
      fromRecipeTag html.data = none ∨
      ∃ w, fromRecipeTag html.data = some w ∧ microdataName (searchRange w) = "" ∧
        microdataIngredients (searchRange w) = []) ∧
    (∀ r, findMicrodataRecipe html = some r →
      r.Name ≠ "" ∨
      ∃ ingList : List String, ingList ≠ [] ∧ r.RecipeIngredient = some (marshalStrings ingList)) := by
  rw [findMicrodataRecipe_eq]
  cases hw : fromRecipeTag html.data with
  | none => simp
  | some w =>
    by_cases hg : microdataName (searchRange w) = "" ∧
        (microdataIngredients (searchRange w)).length = 0
    · simp only [hg, and_self, if_true, true_iff]
      refine ⟨Or.inr ⟨w, rfl, hg.1, List.length_eq_zero.1 hg.2⟩, ?_⟩
      intro r h; cases h
    · simp only [hg, if_false]
      constructor
      · constructor
        · intro h; cases h
        · rintro (h | ⟨w2, h1, h2, h3⟩)
          · cases h
          · cases h1
            exact absurd ⟨h2, by rw [h3]; rfl⟩ hg
      · intro r h
        simp only [Option.some.injEq] at h
        subst h
        by_cases hn : microdataName (searchRange w) = ""
        · right
          have hl : (microdataIngredients (searchRange w)).length ≠ 0 := fun e => hg ⟨hn, e⟩
          refine ⟨microdataIngredients (searchRange w), ?_, ?_⟩
          · intro e; rw [e] at hl; exact hl rfl
          · simp only [gt_iff_lt, Nat.pos_of_ne_zero hl, if_true]
        · left; exact hn

/-- Witness for C18: a recipe with a name only. -/
theorem findMicrodataRecipe_guard_witness :
    ({ Name := "Soup", Description := "", RecipeIngredient := none, RecipeInstructions := none,
       PrepTime := "", CookTime := "", TotalTime := "", RecipeYield := none,
       Image := none } : rawRecipe).Name ≠ "" ∨
    ∃ ingList : List String, ingList ≠ [] ∧
      ({ Name := "Soup", Description := "", RecipeIngredient := none, RecipeInstructions := none,
         PrepTime := "", CookTime := "", TotalTime := "", RecipeYield := none,
         Image := none } : rawRecipe).RecipeIngredient = some (marshalStrings ingList) :=
  (findMicrodataRecipe_guard
    "<div itemtype=\"https://schema.org/Recipe\"><h1 itemprop=\"name\">Soup</h1></div>").2 _
    (by rfl)

/-- Counterexample to C18 as stated: a recipe without name whose only ingredient
element starts with a nested tag. The element is matched with a blank text, so
a recipe is returned, with an empty title and an ingredient field that
normalises to the empty list. -/
theorem findMicrodataRecipe_blank_ingredient :
    (findMicrodataRecipe
      ("<div itemtype=\"https://schema.org/Recipe\">"
        ++ "<li itemprop=\"recipeIngredient\"><b>flour</b></li>"
        ++ "<p itemprop=\"recipeInstructions\">Mix</p></div>")).map
        (fun r => (r.Name, extractIngredients r.RecipeIngredient)) = some ("", []) := by
  decide

/-! ### Rejection of empty records -/

theorem replyFor_some (raw : rawRecipe) (rawURL : String) :
    replyFor (some raw) rawURL =
      if (normalizeRecipe raw rawURL).Title = "" ∧
          (normalizeRecipe raw rawURL).Ingredients.length = 0 ∧
          (normalizeRecipe raw rawURL).Steps.length = 0 then
        .unprocessable
          "Could not extract useful recipe data from this page. Please enter the recipe manually."
      else .ok (normalizeRecipe raw rawURL) := rfl

/-- C19: the record built by `normalizeRecipe` is rejected by the caller (the reply
is the 422 message and not the record) exactly when its title is empty, its
ingredient list is empty and its step list is empty; with one of the three not
empty the reply is the record itself; and a raw recipe with empty name and with
ingredients and instructions absent or empty lists is rejected. -/
theorem replyFor_rejects_iff_all_empty (raw : rawRecipe) (rawURL : String) :
    ((∃ message, replyFor (some raw) rawURL = .unprocessable message) ↔
      (normalizeRecipe raw rawURL).Title = "" ∧ (normalizeRecipe raw rawURL).Ingredients = [] ∧
        (normalizeRecipe raw rawURL).Steps = []) ∧
    ((normalizeRecipe raw rawURL).Title ≠ "" ∨ (normalizeRecipe raw rawURL).Ingredients ≠ [] ∨
        (normalizeRecipe raw rawURL).Steps ≠ [] →
      replyFor (some raw) rawURL = .ok (normalizeRecipe raw rawURL)) ∧
    ((normalizeRecipe raw rawURL).Title = raw.Name ∧
      (normalizeRecipe raw rawURL).Ingredients = extractIngredients raw.RecipeIngredient ∧
      (normalizeRecipe raw rawURL).Steps = extractSteps raw.RecipeInstructions) ∧
    (raw.Name = "" →
      (raw.RecipeIngredient = none ∨ raw.RecipeIngredient = some (.arr [])) →
      (raw.RecipeInstructions = none ∨ raw.RecipeInstructions = some (.arr [])) →
      replyFor (some raw) rawURL = .unprocessable
        "Could not extract useful recipe data from this page. Please enter the recipe manually.") := by
  have hcond : ((normalizeRecipe raw rawURL).Title = "" ∧
      (normalizeRecipe raw rawURL).Ingredients.length = 0 ∧
      (normalizeRecipe raw rawURL).Steps.length = 0) ↔
      ((normalizeRecipe raw rawURL).Title = "" ∧ (normalizeRecipe raw rawURL).Ingredients = [] ∧
        (normalizeRecipe raw rawURL).Steps = []) := by
    simp only [List.length_eq_zero]
  refine ⟨?_, ?_, ⟨rfl, rfl, rfl⟩, ?_⟩
  · by_cases h : (normalizeRecipe raw rawURL).Title = "" ∧
        (normalizeRecipe raw rawURL).Ingredients.length = 0 ∧
        (normalizeRecipe raw rawURL).Steps.length = 0
    · constructor
      · intro _; exact hcond.1 h
      · intro _; exact ⟨_, by rw [replyFor_some, if_pos h]⟩
    · constructor
      · rintro ⟨m, hm⟩
        rw [replyFor_some, if_neg h] at hm
        cases hm
      · intro h2; exact absurd (hcond.2 h2) h
  · intro h
    have hn : ¬ ((normalizeRecipe raw rawURL).Title = "" ∧
        (normalizeRecipe raw rawURL).Ingredients.length = 0 ∧
        (normalizeRecipe raw rawURL).Steps.length = 0) := by
      intro hc
      obtain ⟨h1, h2, h3⟩ := hcond.1 hc
      rcases h with h | h | h
      · exact h h1
      · exact h h2
      · exact h h3
    rw [replyFor_some, if_neg hn]
  · intro hname hing hinst
    have h1 : extractIngredients raw.RecipeIngredient = [] := by
      rcases hing with e | e <;> rw [e] <;> rfl
    have h2 : extractSteps raw.RecipeInstructions = [] := by
      rcases hinst with e | e <;> rw [e] <;> rfl
    have hc : (normalizeRecipe raw rawURL).Title = "" ∧
        (normalizeRecipe raw rawURL).Ingredients.length = 0 ∧
        (normalizeRecipe raw rawURL).Steps.length = 0 := by
      simp only [normalizeRecipe, hname, h1, h2, List.length_nil, and_self]
    rw [replyFor_some, if_pos hc]

/-- Witness for C19: a raw recipe with a name and nothing else is accepted. -/
theorem replyFor_rejects_iff_all_empty_witness :
    replyFor (some (parseRawRecipe [("@type", .str "Recipe"), ("name", .str "Soup")]))
        "https://example.org/soup"
      = .ok (normalizeRecipe (parseRawRecipe [("@type", .str "Recipe"), ("name", .str "Soup")])
          "https://example.org/soup") :=
  (replyFor_rejects_iff_all_empty _ _).2.1 (Or.inl (by decide))

/-! ### Step text made of whitespace -/

theorem trimSpace_all_space (text : String) (h : ∀ c ∈ text.data, isSpace c = true) :
    trimSpace text = "" := by
  have hd : text.data.dropWhile isSpace = [] := List.dropWhile_eq_nil_iff.2 h
  simp only [trimSpace, trimSpaceChars, hd, List.reverse_nil, List.dropWhile_nil]

theorem getStepText_whitespace_text (obj : Obj) (text : String)
    (htext : lookup obj "text" = some (.str text)) (hne : text ≠ "")
    (hspace : ∀ c ∈ text.data, isSpace c = true) :
    getStepText obj = "" := by
  simp only [getStepText, htext, unmarshalString, hne, ne_eq, not_false_eq_true, if_true]
  exact trimSpace_all_space text hspace

/-- C21: for a step object whose `text` field is a string that is not empty and is
made of whitespace only, `getStepText` returns the empty string whatever the
`name` field holds, so `extractSteps` emits no step for the object: the loop
over the sub-items of a section passes it over, the loop over plain step
objects passes it over, and a list holding only that object, directly or as
the one sub-item of a section, gives no step. -/
theorem getStepText_whitespace_text_hides_name (obj : Obj) (text : String)
    (htext : lookup obj "text" = some (.str text)) (hne : text ≠ "")
    (hspace : ∀ c ∈ text.data, isSpace c = true) :
    getStepText obj = "" ∧
    (∀ (rest : List Obj) (steps : List Step),
      stepsOfSubItems (obj :: rest) steps = stepsOfSubItems rest steps) ∧
    (lookup obj "itemListElement" = none →
      (∀ (i : Nat) (rest : List Obj) (steps : List Step),
        stepsOfObjects i (obj :: rest) steps = stepsOfObjects (i + 1) rest steps) ∧
      extractSteps (some (.arr [.obj obj])) = []) ∧
    extractSteps (some (.arr [.obj [("itemListElement", .arr [.obj obj])]])) = [] := by
  have hg := getStepText_whitespace_text obj text htext hne hspace
  have hsub : ∀ (rest : List Obj) (steps : List Step),
      stepsOfSubItems (obj :: rest) steps = stepsOfSubItems rest steps := by
    intro rest steps
    simp only [stepsOfSubItems, hg, ne_eq, not_true_eq_false, if_false]
  refine ⟨hg, hsub, ?_, ?_⟩
  · intro hsec
    have hobj : ∀ (i : Nat) (rest : List Obj) (steps : List Step),
        stepsOfObjects i (obj :: rest) steps = stepsOfObjects (i + 1) rest steps := by
      intro i rest steps
      simp only [stepsOfObjects, hsec, hg, ne_eq, not_true_eq_false, if_false]
    refine ⟨hobj, ?_⟩
    have e1 : extractSteps (some (.arr [.obj obj])) = stepsOfObjects 0 [obj] [] := rfl
    rw [e1, hobj]
    rfl
  · have e2 : extractSteps (some (.arr [.obj [("itemListElement", .arr [.obj obj])]]))
        = stepsOfSubItems [obj] [] := rfl
    rw [e2, hsub]
    rfl

/-- Witness for C21: the step object `{"text": "  ", "name": "Mix"}`. -/
theorem getStepText_whitespace_text_hides_name_witness :
    getStepText [("text", .str "  "), ("name", .str "Mix")] = "" ∧
    extractSteps (some (.arr [.obj [("text", .str "  "), ("name", .str "Mix")]])) = [] :=
  ⟨(getStepText_whitespace_text_hides_name [("text", .str "  "), ("name", .str "Mix")] "  " rfl
      (by decide) (by decide)).1,
    ((getStepText_whitespace_text_hides_name [("text", .str "  "), ("name", .str "Mix")] "  " rfl
      (by decide) (by decide)).2.2.1 rfl).2⟩

/-! ### The search of the specification and the `@type` test -/

theorem elemStrings_some {items : List JSON} {ss : List String}
    (h : elemStrings items = some ss) :
    (∀ x ∈ items, x = .null ∨ ∃ s, x = .str s) ∧ ss = items.map entryText := by
  have hall : ∀ x ∈ items, x = .null ∨ ∃ s, x = .str s := by
    intro x hx
    by_contra hbad
    have hn : elemStrings items = none :=
      elemStrings_eq_none items
        ⟨x, hx, fun e => hbad (Or.inl e), fun s e => hbad (Or.inr ⟨s, e⟩)⟩
    rw [hn] at h
    cases h
  refine ⟨hall, ?_⟩
  have he := elemStrings_entryText items hall
  rw [he] at h
  exact (Option.some.inj h).symm

theorem isRecipeType_of_stringRecipeTyped {fields : Obj} (h : StringRecipeTyped fields) :
    isRecipeType fields = true := by
  rcases h with hs | ⟨items, ha, hall, hmem⟩
  · simp [isRecipeType, hs, unmarshalString]
  · obtain ⟨ss, hss, hin⟩ := elemStrings_of_strings items hall
    have hany : ss.any (fun t => decide (t = "Recipe")) = true :=
      List.any_eq_true.2 ⟨"Recipe", hin hmem, by simp⟩
    simp only [isRecipeType, ha, unmarshalString, unmarshalStringSlice, hss, hany,
      Bool.or_true]

theorem stringRecipeTyped_of_isRecipeType {fields : Obj} (h : isRecipeType fields = true) :
    StringRecipeTyped fields := by
  unfold isRecipeType at h
  cases hl : lookup fields "@type" with
  | none => rw [hl] at h; cases h
  | some t =>
    rw [hl] at h
    cases t with
    | null => simp [unmarshalString, unmarshalStringSlice] at h
    | bool b => simp [unmarshalString, unmarshalStringSlice] at h
    | num lit => simp [unmarshalString, unmarshalStringSlice] at h
    | obj fs => simp [unmarshalString, unmarshalStringSlice] at h
    | str s =>
      simp [unmarshalString, unmarshalStringSlice] at h
      subst h
      exact Or.inl hl
    | arr items =>
      simp only [unmarshalString, unmarshalStringSlice, Bool.false_or] at h
      cases he : elemStrings items with
      | none => rw [he] at h; cases h
      | some ss =>
        rw [he] at h
        obtain ⟨hall, hss⟩ := elemStrings_some he
        obtain ⟨t, ht, hteq⟩ := List.any_eq_true.1 h
        have hteq2 : t = "Recipe" := by simpa using hteq
        rw [hss, hteq2] at ht
        obtain ⟨x, hx, hxe⟩ := List.mem_map.1 ht
        refine Or.inr ⟨items, hl, hall, ?_⟩
        rcases hall x hx with e | ⟨s, e⟩
        · subst e
          have hne : entryText JSON.null ≠ "Recipe" := by decide
          exact absurd hxe hne
        · subst e
          have hs : s = "Recipe" := hxe
          rw [← hs]
          exact hx

theorem isRecipeType_iff (fields : Obj) :
    isRecipeType fields = true ↔ StringRecipeTyped fields :=
  ⟨stringRecipeTyped_of_isRecipeType, isRecipeType_of_stringRecipeTyped⟩

theorem Search_unique {v : JSON} {res : Option rawRecipe}
    (h : Search StringRecipeTyped v res) : findRecipeInJSONLD v = res := by
  induction h with
  | arrEnd => rfl
  | arrHit _ ih => rw [findRecipeInJSONLD, findRecipeInItems, ih]
  | arrNext _ _ ih1 ih2 =>
    rw [findRecipeInJSONLD] at ih2
    rw [findRecipeInJSONLD, findRecipeInItems, ih1]
    exact ih2
  | objMatch ht => rw [findRecipeInJSONLD_obj, if_pos (isRecipeType_of_stringRecipeTyped ht)]
  | objGraph ht hg _ ih =>
    have ht2 : ¬ isRecipeType _ = true := fun e => ht (stringRecipeTyped_of_isRecipeType e)
    rw [findRecipeInJSONLD_obj, hg, if_neg ht2]
    exact ih
  | objNone ht hg =>
    have ht2 : ¬ isRecipeType _ = true := fun e => ht (stringRecipeTyped_of_isRecipeType e)
    rw [findRecipeInJSONLD_obj, hg, if_neg ht2]
  | null => rfl
  | bool => rfl
  | num => rfl
  | str => rfl

mutual
theorem Search_total : ∀ v : JSON, Search StringRecipeTyped v (findRecipeInJSONLD v)
  | .null => Search.null
  | .bool _ => Search.bool
  | .num _ => Search.num
  | .str _ => Search.str
  | .arr items => by
    rw [findRecipeInJSONLD]
    exact Search_items items
  | .obj fields => by
    rw [findRecipeInJSONLD_obj]
    by_cases ht : isRecipeType fields = true
    · rw [if_pos ht]; exact Search.objMatch (stringRecipeTyped_of_isRecipeType ht)
    · have ht2 : ¬ StringRecipeTyped fields := fun e => ht (isRecipeType_of_stringRecipeTyped e)
      rw [if_neg ht]
      have hg := Search_graph fields
      cases hl : lookup fields "@graph" with
      | none => exact Search.objNone ht2 hl
      | some g => exact Search.objGraph ht2 hl (hg g hl)
theorem Search_items : ∀ items : List JSON,
    Search StringRecipeTyped (.arr items) (findRecipeInItems items)
  | [] => Search.arrEnd
  | x :: xs => by
    rw [findRecipeInItems]
    have hx := Search_total x
    cases h : findRecipeInJSONLD x with
    | some r => rw [h] at hx; exact Search.arrHit hx
    | none => rw [h] at hx; exact Search.arrNext hx (Search_items xs)
theorem Search_graph : ∀ (fields : List (String × JSON)) (g : JSON),
    lookup fields "@graph" = some g → Search StringRecipeTyped g (findRecipeInJSONLD g)
  | [], g, h => by simp [lookup] at h
  | (k, v) :: rest, g, h => by
    rw [lookup] at h
    cases hr : lookup rest "@graph" with
    | some w =>
      rw [hr] at h
      simp only [Option.some.injEq] at h
      subst h
      exact Search_graph rest w hr
    | none =>
      rw [hr] at h
      by_cases hk : k = "@graph"
      · simp only [hk, if_true, Option.some.injEq] at h
        subst h
        exact Search_total v
      · simp [hk] at h
end

theorem Search_obj_typed {typed : Obj → Prop} {fields : Obj} {res : Option rawRecipe}
    (h : Search typed (.obj fields) res) (ht : typed fields) :
    res = some (parseRawRecipe fields) := by
  cases h with
  | objMatch _ => rfl
  | objGraph hn _ _ => exact absurd ht hn
  | objNone hn _ => exact absurd ht hn

theorem Search_arr_cons_typed {typed : Obj → Prop} {fields : Obj} {xs : List JSON}
    {res : Option rawRecipe} (h : Search typed (.arr (.obj fields :: xs)) res)
    (ht : typed fields) : res = some (parseRawRecipe fields) := by
  cases h with
  | arrHit hx => exact Search_obj_typed hx ht
  | arrNext hx _ => exact absurd (Search_obj_typed hx ht) (by simp)

/-- C7 (as amended): `findRecipeInJSONLD` is the search of the specification when
an object counts as `Recipe`-typed exactly if its `@type` field is the string
`Recipe` or an array of strings (`null` entries allowed) that contains
`Recipe`. For every value the search ends with `res` exactly when the function
returns `res`; the test made by the code is that test; an array is searched
in element order and the first hit returned; a `Recipe`-typed object is the
match; any other object is searched through its `@graph` field only and gives
no match without one; a `Recipe`-typed object held under any nesting of arrays
and `@graph` envelopes makes the search succeed; and under two `@graph`
envelopes with one-element arrays the recipe returned is the one built from
that object. -/
theorem findRecipeInJSONLD_refines_search :
    (∀ (v : JSON) (res : Option rawRecipe),
      Search StringRecipeTyped v res ↔ findRecipeInJSONLD v = res) ∧
    (∀ fields : Obj, isRecipeType fields = true ↔ StringRecipeTyped fields) ∧
    (∀ items : List JSON,
      findRecipeInJSONLD (.arr items) = items.findSome? findRecipeInJSONLD) ∧
    (∀ fields : Obj, StringRecipeTyped fields →
      findRecipeInJSONLD (.obj fields) = some (parseRawRecipe fields)) ∧
    (∀ fields : Obj, ¬ StringRecipeTyped fields →
      findRecipeInJSONLD (.obj fields) =
        match lookup fields "@graph" with
        | some g => findRecipeInJSONLD g
        | none => none) ∧
    (∀ (v : JSON) (fields : Obj), Wraps v (.obj fields) → StringRecipeTyped fields →
      (findRecipeInJSONLD v).isSome = true) ∧
    (∀ (fields : Obj), StringRecipeTyped fields →
      findRecipeInJSONLD (.obj [("@graph", .arr [.obj [("@graph", .arr [.obj fields])]])])
        = some (parseRawRecipe fields)) := by
  refine ⟨?_, isRecipeType_iff, ?_, ?_, ?_, ?_, ?_⟩
  · intro v res
    constructor
    · exact Search_unique
    · intro h; rw [← h]; exact Search_total v
  · intro items
    rw [findRecipeInJSONLD, findRecipeInItems_eq]
  · intro fields ht
    rw [findRecipeInJSONLD_obj, if_pos (isRecipeType_of_stringRecipeTyped ht)]
  · intro fields ht
    have ht2 : ¬ isRecipeType fields = true := fun e => ht (stringRecipeTyped_of_isRecipeType e)
    rw [findRecipeInJSONLD_obj, if_neg ht2]
  · intro v fields hw ht
    apply findRecipeInJSONLD_wraps hw
    rw [findRecipeInJSONLD_obj, if_pos (isRecipeType_of_stringRecipeTyped ht)]; rfl
  · intro fields hs
    have ht := isRecipeType_of_stringRecipeTyped hs
    have h1 : findRecipeInJSONLD (.obj fields) = some (parseRawRecipe fields) := by
      rw [findRecipeInJSONLD_obj, if_pos ht]
    have h2 : findRecipeInJSONLD (.arr [.obj fields]) = some (parseRawRecipe fields) := by
      rw [findRecipeInJSONLD, findRecipeInItems, h1]
    have h3 : findRecipeInJSONLD (.obj [("@graph", .arr [.obj fields])])
        = some (parseRawRecipe fields) := by
      rw [findRecipeInJSONLD_obj]
      have : isRecipeType [("@graph", JSON.arr [.obj fields])] = false := rfl
      simp [this, lookup, h2]
    have h4 : findRecipeInJSONLD (.arr [.obj [("@graph", .arr [.obj fields])]])
        = some (parseRawRecipe fields) := by
      rw [findRecipeInJSONLD, findRecipeInItems, h3]
    rw [findRecipeInJSONLD_obj]
    have : isRecipeType [("@graph", JSON.arr [.obj [("@graph", .arr [.obj fields])]])] = false :=
      rfl
    simp [this, lookup, h4]

/-- Witness for C7 (as amended): a recipe object inside a `@graph` array inside a
top-level array. -/
theorem findRecipeInJSONLD_refines_search_witness :
    StringRecipeTyped [("@type", .str "Recipe"), ("name", .str "Soup")] ∧
    (findRecipeInJSONLD
      (.arr [.str "x", .obj [("@context", .str "https://schema.org"),
        ("@graph", .arr [.obj [("@type", .str "Organization")],
          .obj [("@type", .str "Recipe"), ("name", .str "Soup")]])]])).isSome = true :=
  ⟨Or.inl rfl,
   findRecipeInJSONLD_refines_search.2.2.2.2.2.1 _
    [("@type", .str "Recipe"), ("name", .str "Soup")]
    (Wraps.inArray (List.mem_cons_of_mem _ (List.mem_cons_self _ _))
      (Wraps.inGraph (g := .arr [.obj [("@type", .str "Organization")],
          .obj [("@type", .str "Recipe"), ("name", .str "Soup")]]) rfl
        (Wraps.inArray (List.mem_cons_of_mem _ (List.mem_cons_self _ _)) Wraps.here)))
    (Or.inl rfl)⟩

/-- Counterexample to C7 as stated, on the document
`[{"@type":["Recipe",1],"name":"A"},{"@type":"Recipe","name":"B"}]`: the first
object has an `@type` array containing `Recipe`, so the search of the
specification ends with the recipe named `A`; the function decodes that array
into a list of strings, fails on the number, passes the object over and returns
the recipe named `B`, which the search of the specification does not end with. -/
theorem findRecipeInJSONLD_passes_over_mixed_type_array :
    SpecRecipeTyped [("@type", .arr [.str "Recipe", .num "1"]), ("name", .str "A")] ∧
    Search SpecRecipeTyped
      (.arr [.obj [("@type", .arr [.str "Recipe", .num "1"]), ("name", .str "A")],
        .obj [("@type", .str "Recipe"), ("name", .str "B")]])
      (some (parseRawRecipe [("@type", .arr [.str "Recipe", .num "1"]), ("name", .str "A")])) ∧
    (parseRawRecipe [("@type", .arr [.str "Recipe", .num "1"]), ("name", .str "A")]).Name
      = "A" ∧
    findRecipeInJSONLD
      (.arr [.obj [("@type", .arr [.str "Recipe", .num "1"]), ("name", .str "A")],
        .obj [("@type", .str "Recipe"), ("name", .str "B")]])
      = some (parseRawRecipe [("@type", .str "Recipe"), ("name", .str "B")]) ∧
    (parseRawRecipe [("@type", .str "Recipe"), ("name", .str "B")]).Name = "B" ∧
    ¬ Search SpecRecipeTyped
      (.arr [.obj [("@type", .arr [.str "Recipe", .num "1"]), ("name", .str "A")],
        .obj [("@type", .str "Recipe"), ("name", .str "B")]])
      (findRecipeInJSONLD
        (.arr [.obj [("@type", .arr [.str "Recipe", .num "1"]), ("name", .str "A")],
          .obj [("@type", .str "Recipe"), ("name", .str "B")]])) := by
  have htyped : SpecRecipeTyped
      [("@type", .arr [.str "Recipe", .num "1"]), ("name", .str "A")] :=
    Or.inr ⟨[.str "Recipe", .num "1"], rfl, List.mem_cons_self _ _⟩
  have hcode : findRecipeInJSONLD
      (.arr [.obj [("@type", .arr [.str "Recipe", .num "1"]), ("name", .str "A")],
        .obj [("@type", .str "Recipe"), ("name", .str "B")]])
      = some (parseRawRecipe [("@type", .str "Recipe"), ("name", .str "B")]) := by
    rw [findRecipeInJSONLD, findRecipeInItems, findRecipeInJSONLD_obj]
    have h1 : isRecipeType [("@type", JSON.arr [.str "Recipe", .num "1"]), ("name", .str "A")]
        = false := by decide
    have h2 : lookup [("@type", JSON.arr [.str "Recipe", .num "1"]), ("name", .str "A")]
        "@graph" = none := rfl
    rw [h1, h2]
    simp only [Bool.false_eq_true, if_false]
    rw [findRecipeInItems, findRecipeInJSONLD_obj]
    have h3 : isRecipeType [("@type", JSON.str "Recipe"), ("name", .str "B")] = true := by
      decide
    rw [h3]
    rfl
  have hA : (parseRawRecipe
      [("@type", .arr [.str "Recipe", .num "1"]), ("name", .str "A")]).Name = "A" := by
    decide
  have hB : (parseRawRecipe [("@type", .str "Recipe"), ("name", .str "B")]).Name = "B" := by
    decide
  refine ⟨htyped, Search.arrHit (Search.objMatch htyped), hA, hcode, hB, ?_⟩
  rw [hcode]
  intro hs
  have he := Search_arr_cons_typed hs htyped
  have hn := congrArg rawRecipe.Name (Option.some.inj he)
  rw [hA, hB] at hn
  exact absurd hn (by decide)

end Falimy
